import Mathlib

/-!
# find-imports.go: the import lister of the Go language support

A shallow embedding of `src/data/go/find-imports.go` and a verification of its
specification.  The program reads a Go source file from stdin, parses the
section of its imports with `go/parser`, and prints one JSON record for each
of them (unquoted path and the 0-based editor range), or prints an error to
stderr and exits with status 1.

Layout of the development:

* Go values: strings are byte sequences, `error` values are `nil` or carry the
  text of their `Error()` method, slices are `nil` or hold elements, `int` is a
  two's complement integer of `intBits` bits.
* The types and functions of the source file: `VSPosition`, `VSRange`,
  `GoImport`, `toVSPos`, `main`.
* The standard-library calls of `main`.  The parser, `strconv.Unquote` and
  `json.Marshal` are collaborators of `main`: `main` is parameterised over their
  behaviour (`Env`), so every statement about `main` that quantifies over `Env`
  holds for every outcome of the three.  Concrete models of `strconv.Unquote`,
  `json.Marshal`, `ast.ImportSpec.Pos/End` and `token.File` positions follow the
  Go standard library and are used where a statement is about concrete bytes.
-/

namespace FindImports

/-! ## Go values -/

/-- A Go string: an immutable sequence of bytes (each element is below 256). -/
abbrev GoString := List Nat

/-- The bytes of a string constant (its UTF-8 encoding, as in a Go source file). -/
def utf8 (s : String) : GoString :=
  s.toList.flatMap (fun c => (String.utf8EncodeChar c).map UInt8.toNat)

/-- A value of the Go interface type `error`: `none` is `nil`, `some msg` is an
error whose `Error()` method returns `msg`. -/
abbrev GoError := Option GoString

/-- A Go slice header is either `nil` (`none`) or refers to elements (`some`);
`json.Marshal` tells the two apart. -/
abbrev GoSlice (α : Type) := Option (List α)

/-- The Go builtin `make([]T, 0)`: an empty slice that is not `nil`. -/
def GoSlice.make0 {α : Type} : GoSlice α := some []

/-- The Go builtin `append(s, x)`. -/
def GoSlice.append {α : Type} (s : GoSlice α) (x : α) : GoSlice α :=
  match s with
  | none => some [x]
  | some l => some (l ++ [x])

/-- Reduction of a mathematical integer to a Go `int` of `w` bits (two's
complement wrap-around), `w` being 32 or 64. -/
def wrapInt (w : Nat) (x : Int) : Int :=
  (x + 2 ^ (w - 1)) % 2 ^ w - 2 ^ (w - 1)

/-! ## go/token and go/ast -/

/-- The struct `token.Position`: a source position with 1-based line and column
(a line or column of 0 means "unknown"). -/
structure Position where
  Filename : GoString
  Offset : Int
  Line : Int
  Column : Int
deriving DecidableEq

/-- The struct `ast.Ident`, reduced to the fields its `Pos()` reads. -/
structure Ident where
  NamePos : Int
  Name : GoString
deriving DecidableEq

/-- The struct `ast.BasicLit`: `Value` is the literal text, quotes included
(the scanner strips carriage returns from a raw literal), `ValuePos` its
position and `ValueEnd` the position right after the literal in the source;
`ValueEnd` is 0 (`token.NoPos`) where none is recorded (a literal not made by
the parser, or a Go release before the field existed). -/
structure BasicLit where
  ValuePos : Int
  ValueEnd : Int
  Value : GoString
deriving DecidableEq

/-- The struct `ast.ImportSpec`: `Name` is the local package name (an alias,
`.` or `_`) or `nil`; `EndPos` is 0 unless a tool has set it (the parser does
not). -/
structure ImportSpec where
  Name : Option Ident
  Path : BasicLit
  EndPos : Int
deriving DecidableEq

/-- The method `(*ast.BasicLit).Pos`: `return x.ValuePos`. -/
def BasicLit.Pos (x : BasicLit) : Int := x.ValuePos

/-- The method `(*ast.BasicLit).End`: `x.ValueEnd` when it is valid, and
otherwise the heuristic `token.Pos(int(x.ValuePos) + len(x.Value))`. -/
def BasicLit.End (w : Nat) (x : BasicLit) : Int :=
  if x.ValueEnd ≠ 0 then x.ValueEnd else wrapInt w (x.ValuePos + x.Value.length)

/-- The method `(*ast.ImportSpec).Pos`:
`if s.Name != nil { return s.Name.Pos() }; return s.Path.Pos()`. -/
def ImportSpec.Pos (s : ImportSpec) : Int :=
  match s.Name with
  | some name => name.NamePos
  | none => s.Path.Pos

/-- The method `(*ast.ImportSpec).End`:
`if s.EndPos != 0 { return s.EndPos }; return s.Path.End()`. -/
def ImportSpec.End (w : Nat) (s : ImportSpec) : Int :=
  if s.EndPos ≠ 0 then s.EndPos else s.Path.End w

/-- The struct `ast.GenDecl` of one declaration with the keyword of imports:
`TokPos` is the position of the keyword, `Lparen` and `Rparen` are the
positions of the grouping parentheses (0 when there are none), `Specs` the
declarations inside. -/
structure GenDecl where
  TokPos : Int
  Lparen : Int
  Specs : List ImportSpec
  Rparen : Int
deriving DecidableEq

/-- The struct `ast.File`, reduced to its declarations and to the field that
`main` reads: `Imports` lists the `ImportSpec`s of all declarations in source
order. -/
structure File where
  Decls : List GenDecl
  Imports : List ImportSpec
deriving DecidableEq

/-! ## The source file: types -/

/-- Source lines 15-18: an editor position, serialised with the keys `line`
and `character`. -/
structure VSPosition where
  Line : Int
  Character : Int
deriving DecidableEq

/-- Source lines 20-23: an editor range, serialised with the keys `start` and
`end`. -/
structure VSRange where
  Start : VSPosition
  End : VSPosition
deriving DecidableEq

/-- Source lines 25-28: one result record, serialised with the keys `name` and
`range`. -/
structure GoImport where
  Name : GoString
  Range : VSRange
deriving DecidableEq

/-- Source lines 30-33: `return VSPosition { src.Line - 1, src.Column - 1, }`
on Go ints of `w` bits. -/
def toVSPos (w : Nat) (src : Position) : VSPosition :=
  { Line := wrapInt w (src.Line - 1), Character := wrapInt w (src.Column - 1) }

/-! ## The source file: `main` -/

/-- What `parser.ParseFile(fset, "src.go", reader, parser.ImportsOnly)` leaves
behind: the position table of `fset` (the method `fset.Position`), the returned
file and the returned error.  On a syntax error Go returns a partial file
together with the error; `file` is only meaningful to `main` when `err` is
`nil`. -/
structure Parsed where
  Position : Int → Position
  file : File
  err : GoError

/-- The collaborators of `main`: the width of `int`, the parser run on the
bytes of stdin, `strconv.Unquote` and `json.Marshal` (both return a value and
an `error`). -/
structure Env where
  intBits : Nat
  ParseFile : GoString → Parsed
  Unquote : GoString → GoString × GoError
  Marshal : GoSlice GoImport → GoString × GoError

/-- How a run of the process ends: `main` returns (exit status 0), `os.Exit`
is called, or the Go runtime aborts the program on a nil dereference (it prints
its own panic report and exits with status 2). -/
inductive Termination where
  | returned
  | exited (code : Int)
  | nilDereference
deriving DecidableEq

/-- The observable result of a run: the bytes the program wrote with
`os.Stdout.Write`, the bytes it wrote with `os.Stderr.Write`, and the way
it ended. -/
structure Outcome where
  stdout : GoString
  stderr : GoString
  term : Termination
deriving DecidableEq

deriving instance DecidableEq for Except

/-- The exit status of the process. -/
def Outcome.status (o : Outcome) : Int :=
  match o.term with
  | .returned => 0
  | .exited code => code
  | .nilDereference => 2

/-- The statement pair `os.Stderr.Write([]byte(e.Error())); os.Exit(1)` of
source lines 41-42, 53-54 and 65-66, for the error variable `e` named there.
Calling `Error()` on a nil interface value aborts the program before anything
is written. -/
def writeErrorAndExit (e : GoError) : Outcome :=
  match e with
  | some msg => { stdout := [], stderr := msg, term := .exited 1 }
  | none => { stdout := [], stderr := [], term := .nilDereference }

/-- Source lines 47-61, the loop over `file.Imports` with the accumulator
`results`: it ends early with the outcome of lines 53-54 when a path literal
does not unquote. -/
def importLoop (env : Env) (fsetPosition : Int → Position) :
    List ImportSpec → GoSlice GoImport → Except Outcome (GoSlice GoImport)
  | [], results => .ok results
  | imp :: rest, results =>
    let start := fsetPosition imp.Pos
    let stop := fsetPosition (imp.End env.intBits)
    let (name, nameErr) := env.Unquote imp.Path.Value
    if nameErr ≠ none then
      .error (writeErrorAndExit nameErr)
    else
      importLoop env fsetPosition rest
        (results.append
          { Name := name,
            Range := { Start := toVSPos env.intBits start, End := toVSPos env.intBits stop } })

/-- Source lines 35-70.  `parsed.err` is the variable `err` of line 38; line 65
passes `err` (not `encErr`) to `Error()`. -/
def main (env : Env) (stdin : GoString) : Outcome :=
  let parsed := env.ParseFile stdin
  if parsed.err ≠ none then
    writeErrorAndExit parsed.err
  else
    match importLoop env parsed.Position parsed.file.Imports GoSlice.make0 with
    | .error halted => halted
    | .ok results =>
      let (result, encErr) := env.Marshal results
      if encErr ≠ none then
        writeErrorAndExit parsed.err
      else
        { stdout := result, stderr := [], term := .returned }

/-! ## unicode/utf8 -/

/-- The constant `utf8.RuneError`, U+FFFD. -/
def RuneError : Nat := 0xFFFD

/-- The constant `utf8.RuneSelf`: bytes below it are single-byte runes. -/
def RuneSelf : Nat := 0x80

/-- The constant `utf8.MaxRune`. -/
def MaxRune : Nat := 0x10FFFF

/-- The table `first` of unicode/utf8: information on the first byte of an
encoding (`0xF0` ASCII, `0xF1` invalid, otherwise accept-range index in the
high nibble and size in the low one). -/
def first (b : Nat) : Nat :=
  if b < 0x80 then 0xF0
  else if b < 0xC2 then 0xF1
  else if b < 0xE0 then 0x02
  else if b = 0xE0 then 0x13
  else if b < 0xED then 0x03
  else if b = 0xED then 0x23
  else if b < 0xF0 then 0x03
  else if b = 0xF0 then 0x34
  else if b < 0xF4 then 0x04
  else if b = 0xF4 then 0x44
  else 0xF1

/-- The table `acceptRanges` of unicode/utf8: the range allowed for the second
byte. -/
def acceptRanges (i : Nat) : Nat × Nat :=
  match i with
  | 0 => (0x80, 0xBF)
  | 1 => (0xA0, 0xBF)
  | 2 => (0x80, 0x9F)
  | 3 => (0x90, 0xBF)
  | 4 => (0x80, 0x8F)
  | _ => (0, 0)

/-- The function `utf8.DecodeRuneInString`: the first rune of `s` and its width
in bytes; `(RuneError, 0)` on the empty string and `(RuneError, 1)` on an
invalid encoding. -/
def DecodeRuneInString (s : GoString) : Nat × Nat :=
  let n := s.length
  if n < 1 then (RuneError, 0) else
  let s0 := s.getD 0 0
  let x := first s0
  if x ≥ 0xF0 then
    (if x = 0xF1 then RuneError else s0, 1)
  else
    let sz := x &&& 7
    let accept := acceptRanges (x >>> 4)
    if n < sz then (RuneError, 1) else
    let s1 := s.getD 1 0
    if s1 < accept.1 ∨ accept.2 < s1 then (RuneError, 1) else
    if sz ≤ 2 then (((s0 &&& 0x1F) <<< 6) ||| (s1 &&& 0x3F), 2) else
    let s2 := s.getD 2 0
    if s2 < 0x80 ∨ 0xBF < s2 then (RuneError, 1) else
    if sz ≤ 3 then
      (((s0 &&& 0x0F) <<< 12) ||| ((s1 &&& 0x3F) <<< 6) ||| (s2 &&& 0x3F), 3)
    else
    let s3 := s.getD 3 0
    if s3 < 0x80 ∨ 0xBF < s3 then (RuneError, 1) else
    (((s0 &&& 0x07) <<< 18) ||| ((s1 &&& 0x3F) <<< 12) ||| ((s2 &&& 0x3F) <<< 6)
      ||| (s3 &&& 0x3F), 4)

/-- The loop of `utf8.ValidString` on the rest `s` of the string.  Every
iteration consumes at least one byte, so a fuel of `s.length` is never used
up before `s` is empty. -/
def validStringLoop : Nat → GoString → Bool
  | _, [] => true
  | 0, _ :: _ => true
  | fuel + 1, si :: rest =>
    if si < RuneSelf then validStringLoop fuel rest
    else
      let x := first si
      if x = 0xF1 then false else
      let size := x &&& 7
      if size > (si :: rest).length then false else
      let accept := acceptRanges (x >>> 4)
      let c1 := rest.getD 0 0
      if c1 < accept.1 ∨ accept.2 < c1 then false
      else if size = 2 then validStringLoop fuel (rest.drop 1)
      else
        let c2 := rest.getD 1 0
        if c2 < 0x80 ∨ 0xBF < c2 then false
        else if size = 3 then validStringLoop fuel (rest.drop 2)
        else
          let c3 := rest.getD 2 0
          if c3 < 0x80 ∨ 0xBF < c3 then false
          else validStringLoop fuel (rest.drop 3)

/-- The function `utf8.ValidString`: `s` consists of valid UTF-8 encodings
only. -/
def ValidString (s : GoString) : Bool := validStringLoop s.length s

/-- The function `utf8.ValidRune`: `r` is a Unicode scalar value. -/
def ValidRune (r : Nat) : Bool :=
  r < 0xD800 || (0xDFFF < r && r ≤ MaxRune)

/-- The function `utf8.AppendRune` on an empty buffer: the UTF-8 encoding of
`r`, that of `RuneError` when `r` is out of range or a surrogate. -/
def encodeRune (r : Nat) : GoString :=
  if r ≤ 0x7F then [r]
  else if r ≤ 0x7FF then [0xC0 ||| (r >>> 6), 0x80 ||| (r &&& 0x3F)]
  else if r > MaxRune ∨ (0xD800 ≤ r ∧ r ≤ 0xDFFF) then [0xEF, 0xBF, 0xBD]
  else if r ≤ 0xFFFF then
    [0xE0 ||| (r >>> 12), 0x80 ||| ((r >>> 6) &&& 0x3F), 0x80 ||| (r &&& 0x3F)]
  else
    [0xF0 ||| (r >>> 18), 0x80 ||| ((r >>> 12) &&& 0x3F), 0x80 ||| ((r >>> 6) &&& 0x3F),
      0x80 ||| (r &&& 0x3F)]

/-! ## strconv.Unquote -/

/-- The text of `strconv.ErrSyntax`, the only error of `strconv.Unquote`. -/
def errSyntaxText : GoString := utf8 "invalid syntax"

/-- The function `unhex` of strconv: the value of a hexadecimal digit. -/
def unhex (b : Nat) : Option Nat :=
  if 0x30 ≤ b ∧ b ≤ 0x39 then some (b - 0x30)
  else if 0x61 ≤ b ∧ b ≤ 0x66 then some (b - 0x61 + 10)
  else if 0x41 ≤ b ∧ b ≤ 0x46 then some (b - 0x41 + 10)
  else none

/-- The digit loop of `strconv.UnquoteChar` for the escapes x, u and U:
`v = v<<4 | x` over the digits, `none` when one is not hexadecimal.  (Go keeps
`v` in an int32; a value of eight digits that overflows it is negative there
and above `MaxRune` here, and is rejected by `ValidRune` in both.) -/
def hexValue : GoString → Nat → Option Nat
  | [], v => some v
  | d :: rest, v =>
    match unhex d with
    | none => none
    | some x => hexValue rest ((v <<< 4) ||| x)

/-- The digit loop of `strconv.UnquoteChar` for an octal escape:
`v = (v << 3) | x`, `none` when a digit is not in 0..7. -/
def octalValue : GoString → Nat → Option Nat
  | [], v => some v
  | d :: rest, v =>
    if d < 0x30 ∨ 0x37 < d then none else octalValue rest ((v <<< 3) ||| (d - 0x30))

/-- The case `'x', 'u', 'U'` of the escape switch of `strconv.UnquoteChar`: `e`
is the letter and `t` the input after it; two, four or eight hexadecimal digits
follow.  An `x` escape yields a single byte, the other two a valid rune. -/
def unquoteHexEscape (e : Nat) (t : GoString) : Option (Nat × Bool × GoString) :=
  let n := if e = 0x78 then 2 else if e = 0x75 then 4 else 8
  if t.length < n then none else
  match hexValue (t.take n) 0 with
  | none => none
  | some v =>
    if e = 0x78 then some (v, false, t.drop n)
    else if ¬ ValidRune v then none
    else some (v, true, t.drop n)

/-- The case `'0'` to `'7'` of the escape switch of `strconv.UnquoteChar`: `e`
is the first octal digit and `t` the input after it; two more digits follow and
the value is at most 255. -/
def unquoteOctalEscape (e : Nat) (t : GoString) : Option (Nat × Bool × GoString) :=
  if t.length < 2 then none else
  match octalValue (t.take 2) (e - 0x30) with
  | none => none
  | some v => if v > 255 then none else some (v, false, t.drop 2)

/-- The hard case of `strconv.UnquoteChar`: the escape sequence after a
backslash, `e` being the byte after the backslash and `t` the input after `e`.
The result is `(value, multibyte, tail)`, and `none` stands for the error
`ErrSyntax`. -/
def unquoteEscape (e : Nat) (t : GoString) (quote : Nat) : Option (Nat × Bool × GoString) :=
  if e = 0x61 then some (0x07, false, t)
  else if e = 0x62 then some (0x08, false, t)
  else if e = 0x66 then some (0x0C, false, t)
  else if e = 0x6E then some (0x0A, false, t)
  else if e = 0x72 then some (0x0D, false, t)
  else if e = 0x74 then some (0x09, false, t)
  else if e = 0x76 then some (0x0B, false, t)
  else if e = 0x78 ∨ e = 0x75 ∨ e = 0x55 then unquoteHexEscape e t
  else if 0x30 ≤ e ∧ e ≤ 0x37 then unquoteOctalEscape e t
  else if e = 0x5C then some (0x5C, false, t)
  else if e = 0x27 ∨ e = 0x22 then
    if e ≠ quote then none else some (e, false, t)
  else none

/-- The function `strconv.UnquoteChar(s, quote)`: decodes the first character
or escape sequence of `s`; the result is `(value, multibyte, tail)`, and `none`
stands for the error `ErrSyntax`. -/
def UnquoteChar (s : GoString) (quote : Nat) : Option (Nat × Bool × GoString) :=
  match s with
  | [] => none
  | c :: rest =>
    if c = quote ∧ (quote = 0x27 ∨ quote = 0x22) then none
    else if c ≥ RuneSelf then
      let (r, size) := DecodeRuneInString s
      some (r, true, s.drop size)
    else if c ≠ 0x5C then some (c, false, rest)
    else
      match rest with
      | [] => none
      | e :: t => unquoteEscape e t quote

/-- The loop of `unquote` over a quoted string with escape sequences: `s` is
the rest of the input, `buf` the bytes decoded so far.  The result is the state
`(buf, s)` at the exit of the loop, `none` for `return "", in0, ErrSyntax`.
Every iteration consumes at least one byte, so a fuel of `s.length` is never
used up before `s` is empty. -/
def unquoteLoop (quote : Nat) : Nat → GoString → GoString → Option (GoString × GoString)
  | _, [], buf => some (buf, [])
  | 0, c :: rest, buf => some (buf, c :: rest)
  | fuel + 1, c :: rest, buf =>
    if c = quote then some (buf, c :: rest)
    else
      match UnquoteChar (c :: rest) quote with
      | none => none
      | some (r, multibyte, rem) =>
        if c = 0x0A then none
        else
          let buf1 := if r < RuneSelf ∨ ¬ multibyte then buf ++ [r % 256] else buf ++ encodeRune r
          if quote = 0x27 then some (buf1, rem)
          else unquoteLoop quote fuel rem buf1

/-- The function `unquote(in, true)` of strconv: the unquoted prefix of `s`,
the remainder after it, and the error. -/
def unquote (s : GoString) : GoString × GoString × GoError :=
  if s.length < 2 then ([], s, some errSyntaxText) else
  let quote := s.getD 0 0
  match (s.drop 1).indexOf? quote with
  | none => ([], s, some errSyntaxText)
  | some i =>
    let stop := i + 2
    if quote = 0x60 then
      if ¬ (s.take stop).contains 0x0D then
        ((s.take (stop - 1)).drop 1, s.drop stop, none)
      else
        (((s.take (stop - 1)).drop 1).filter (fun b => b ≠ 0x0D), s.drop stop, none)
    else if quote = 0x22 ∨ quote = 0x27 then
      let inner := (s.take (stop - 1)).drop 1
      let valid :=
        if quote = 0x22 then ValidString inner
        else
          let (r, n) := DecodeRuneInString inner
          decide (1 + n + 1 = stop) && (decide (r ≠ RuneError) || decide (n ≠ 1))
      if ¬ (s.take stop).contains 0x5C ∧ ¬ (s.take stop).contains 0x0A ∧ valid then
        (inner, s.drop stop, none)
      else
        match unquoteLoop quote (s.length - 1) (s.drop 1) [] with
        | none => ([], s, some errSyntaxText)
        | some (buf, rest) =>
          match rest with
          | [] => ([], s, some errSyntaxText)
          | c :: rest1 =>
            if c ≠ quote then ([], s, some errSyntaxText) else (buf, rest1, none)
    else ([], s, some errSyntaxText)

/-- The function `strconv.Unquote`: interprets `s` as a Go string, raw string
or character literal and returns the string it quotes. -/
def strconvUnquote (s : GoString) : GoString × GoError :=
  match unquote s with
  | (out, rem, err) => if rem.length > 0 then ([], some errSyntaxText) else (out, err)

/-! ## encoding/json -/

/-- The table `htmlSafeSet` of encoding/json on the bytes below `RuneSelf`:
the bytes that a JSON string holds unescaped (all of 0x20..0x7F but the double
quote, the ampersand, the angle brackets and the backslash). -/
def htmlSafeSet (b : Nat) : Bool :=
  decide (0x20 ≤ b) && decide (b < 0x80) &&
    !(b = 0x22 || b = 0x26 || b = 0x3C || b = 0x3E || b = 0x5C)

/-- The string `hex` of encoding/json, indexed. -/
def hexDigit (n : Nat) : Nat := (utf8 "0123456789abcdef").getD n 0

/-- The escape that `appendString` writes for a byte below `RuneSelf` that is
not in `htmlSafeSet` (Go 1.22 and later; earlier releases write the `\u00XX`
form for backspace and form feed too). -/
def escapeByte (b : Nat) : GoString :=
  if b = 0x5C ∨ b = 0x22 then [0x5C, b]
  else if b = 0x08 then [0x5C, 0x62]
  else if b = 0x0C then [0x5C, 0x66]
  else if b = 0x0A then [0x5C, 0x6E]
  else if b = 0x0D then [0x5C, 0x72]
  else if b = 0x09 then [0x5C, 0x74]
  else [0x5C, 0x75, 0x30, 0x30, hexDigit (b >>> 4), hexDigit (b &&& 0xF)]

/-- The loop of the string encoder of encoding/json (with HTML escaping, as
`json.Marshal` runs it) on the rest `src` of the string: safe bytes and valid
multi-byte runes are copied, other bytes below `RuneSelf` are escaped, a byte
that starts no valid UTF-8 encoding is replaced by U+FFFD (written as its three
bytes), and U+2028 and U+2029 are escaped.  (Go copies the unescaped stretches
lazily; the bytes written are the same.)  Every iteration consumes at least one
byte, so a fuel of `src.length` is never used up before `src` is empty. -/
def appendStringLoop : Nat → GoString → GoString
  | _, [] => []
  | 0, _ :: _ => []
  | fuel + 1, b :: rest =>
    if b < RuneSelf then
      if htmlSafeSet b then b :: appendStringLoop fuel rest
      else escapeByte b ++ appendStringLoop fuel rest
    else
      let n := min (b :: rest).length 4
      let (c, size) := DecodeRuneInString ((b :: rest).take n)
      if c = RuneError ∧ size = 1 then
        [0xEF, 0xBF, 0xBD] ++ appendStringLoop fuel rest
      else if c = 0x2028 ∨ c = 0x2029 then
        [0x5C, 0x75, 0x32, 0x30, 0x32, hexDigit (c &&& 0xF)]
          ++ appendStringLoop fuel ((b :: rest).drop size)
      else
        (b :: rest).take size ++ appendStringLoop fuel ((b :: rest).drop size)

/-- The string encoder of encoding/json: the JSON string literal for the Go
string `src`, as `json.Marshal` writes it. -/
def appendString (src : GoString) : GoString :=
  [0x22] ++ appendStringLoop src.length src ++ [0x22]

/-- The function `strconv.AppendInt(nil, n, 10)`: the decimal digits of `n`,
after a minus sign when `n` is negative. -/
def formatInt (n : Int) : GoString :=
  let digits := (Nat.toDigits 10 n.natAbs).map Char.toNat
  if n < 0 then 0x2D :: digits else digits

/-- A Go value as the reflection walk of `json.Marshal` sees it, for the kinds
that occur in `[]GoImport`: integers, strings, structs (the exported fields in
declaration order, each with the key of its `json` tag) and slices. -/
inductive JValue where
  | int (n : Int)
  | string (s : GoString)
  | struct (fields : List (GoString × JValue))
  | slice (elems : Option (List JValue))

mutual
/-- The encoders of encoding/json by kind: `intEncoder`, `stringEncoder`,
`structEncoder` and `sliceEncoder` (which writes `null` for a nil slice). -/
def encodeValue : JValue → GoString
  | .int n => formatInt n
  | .string s => appendString s
  | .struct fields => encodeFields 0x7B fields
  | .slice none => utf8 "null"
  | .slice (some elems) => [0x5B] ++ encodeElems true elems ++ [0x5D]
/-- The field loop of `structEncoder.encode`: `next` is the byte written before
the next field, an opening brace at first and a comma later. -/
def encodeFields : Nat → List (GoString × JValue) → GoString
  | next, [] => if next = 0x7B then utf8 "\x7b\x7d" else [0x7D]
  | next, (key, v) :: rest =>
    [next] ++ ([0x22] ++ key ++ [0x22, 0x3A]) ++ encodeValue v ++ encodeFields 0x2C rest
/-- The element loop of `arrayEncoder.encode`: a comma before every element but
the first. -/
def encodeElems : Bool → List JValue → GoString
  | _, [] => []
  | isFirst, v :: rest =>
    (if isFirst then [] else [0x2C]) ++ encodeValue v ++ encodeElems false rest
end

/-- The reflection view of `VSPosition` (source lines 15-18). -/
def VSPosition.toJValue (p : VSPosition) : JValue :=
  .struct [(utf8 "line", .int p.Line), (utf8 "character", .int p.Character)]

/-- The reflection view of `VSRange` (source lines 20-23). -/
def VSRange.toJValue (r : VSRange) : JValue :=
  .struct [(utf8 "start", r.Start.toJValue), (utf8 "end", r.End.toJValue)]

/-- The reflection view of `GoImport` (source lines 25-28). -/
def GoImport.toJValue (g : GoImport) : JValue :=
  .struct [(utf8 "name", .string g.Name), (utf8 "range", g.Range.toJValue)]

/-- The function `json.Marshal` at the type `[]GoImport`.  It has no error
outcome at this type (errors arise from unsupported kinds, cycles and custom
marshalers only). -/
def jsonMarshal (results : GoSlice GoImport) : GoString × GoError :=
  (encodeValue (.slice (results.map (fun l => l.map GoImport.toJValue))), none)

/-! ## go/token positions -/

/-- The struct `token.File` of a file without `//line` directives: `lines`
holds the offset of the first byte of every line. -/
structure TokenFile where
  name : GoString
  base : Int
  size : Int
  lines : List Int
deriving DecidableEq

/-- The loop of `searchInts` of go/token (a binary search on `[i, j)`). -/
def searchIntsLoop (a : List Int) (x : Int) : Nat → Nat → Nat → Nat
  | 0, i, _ => i
  | fuel + 1, i, j =>
    if i < j then
      let h := (i + j) / 2
      if a.getD h 0 ≤ x then searchIntsLoop a x fuel (h + 1) j
      else searchIntsLoop a x fuel i h
    else i

/-- The function `searchInts(a, x)` of go/token: the index of the largest
element of the sorted `a` that is at most `x`, or -1. -/
def searchInts (a : List Int) (x : Int) : Int :=
  (searchIntsLoop a x (a.length + 1) 0 a.length : Nat) - 1

/-- The method `fset.Position(p)` for a file set that holds the single file
`f`: the zero `Position` for `token.NoPos` and for a `p` outside the file,
otherwise file name, offset, and 1-based line and column. -/
def TokenFile.Position (f : TokenFile) (p : Int) : Position :=
  if p = 0 ∨ p < f.base ∨ f.base + f.size < p then
    { Filename := [], Offset := 0, Line := 0, Column := 0 }
  else
    let offset := p - f.base
    let i := searchInts f.lines offset
    if 0 ≤ i then
      { Filename := f.name, Offset := offset, Line := i + 1,
        Column := offset - f.lines.getD i.toNat 0 + 1 }
    else
      { Filename := f.name, Offset := offset, Line := 0, Column := 0 }

/-- The file table that `parser.ParseFile(fset, "src.go", ...)` adds to a
fresh file set when the scanner has read the whole source text `src`: base 1,
the size of the text, and a line start after every newline byte that is not
the last byte (`AddLine` ignores an offset that is not below the size). -/
def tokenFileOf (src : GoString) : TokenFile :=
  { name := utf8 "src.go", base := 1, size := src.length,
    lines := 0 :: ((List.range src.length).filter
      (fun i => src.getD i 0 = 0x0A ∧ i + 1 < src.length)).map
      (fun i => ((i + 1 : Nat) : Int)) }

/-- The environment of the real program on a machine with `w`-bit ints:
`strconv.Unquote` and `json.Marshal` of the standard library, and a parser
`P`. -/
def stdEnv (w : Nat) (P : GoString → Parsed) : Env :=
  { intBits := w, ParseFile := P, Unquote := strconvUnquote, Marshal := jsonMarshal }

/-! ## Reference definitions for the statements -/

/-- The record that source lines 48-60 build for the declaration `imp`: the
value returned by `Unquote` and both endpoints passed through `toVSPos`. -/
def recordOf (env : Env) (fsetPosition : Int → Position) (imp : ImportSpec) : GoImport :=
  { Name := (env.Unquote imp.Path.Value).1,
    Range := { Start := toVSPos env.intBits (fsetPosition imp.Pos),
               End := toVSPos env.intBits (fsetPosition (imp.End env.intBits)) } }

/-- The JSON text of an editor position: an object with the integer fields
`line` and `character`. -/
def positionText (p : VSPosition) : GoString :=
  utf8 "\x7b\"line\":" ++ formatInt p.Line ++ utf8 ",\"character\":" ++ formatInt p.Character
    ++ utf8 "\x7d"

/-- The JSON text of an editor range: an object with the fields `start` and
`end`, a position each. -/
def rangeText (r : VSRange) : GoString :=
  utf8 "\x7b\"start\":" ++ positionText r.Start ++ utf8 ",\"end\":" ++ positionText r.End
    ++ utf8 "\x7d"

/-- The JSON text of a record: an object with the string field `name` and the
field `range`. -/
def recordText (g : GoImport) : GoString :=
  utf8 "\x7b\"name\":" ++ appendString g.Name ++ utf8 ",\"range\":" ++ rangeText g.Range
    ++ utf8 "\x7d"

/-- The JSON text of a sequence of records: an array of the record objects in
sequence order, separated by commas. -/
def payloadText (records : List GoImport) : GoString :=
  utf8 "[" ++ List.intercalate (utf8 ",") (records.map recordText) ++ utf8 "]"

/-! ## A reader for the success encoding

The definitions of this section follow the words of the specification, not the
source: `readPayload` accepts exactly the texts that are a JSON array (RFC
8259, without insignificant whitespace) of objects with the field `name`, a
string, and the field `range`, an object with the fields `start` and `end`, each
an object with the integer fields `line` and `character`, and returns the
records that such a text denotes.  It uses the decoder of unicode/utf8 and
nothing of the model of `json.Marshal`; the statements about the payload
compare the two. -/

/-- The value of a hexadecimal digit in a `\u` escape of a JSON string. -/
def hexDigitValue (b : Nat) : Option Nat :=
  if 0x30 ≤ b ∧ b ≤ 0x39 then some (b - 0x30)
  else if 0x61 ≤ b ∧ b ≤ 0x66 then some (b - 0x61 + 10)
  else if 0x41 ≤ b ∧ b ≤ 0x46 then some (b - 0x41 + 10)
  else none

/-- The code unit that the four hexadecimal digits `s` of a `\u` escape
denote. -/
def readHex4 (s : GoString) : Option Nat :=
  match s with
  | [a, b, c, d] =>
    match hexDigitValue a, hexDigitValue b, hexDigitValue c, hexDigitValue d with
    | some a, some b, some c, some d => some (((a * 16 + b) * 16 + c) * 16 + d)
    | _, _, _, _ => none
  | _ => none

/-- The character that a two-character escape of a JSON string denotes, `e`
being the byte after the backslash. -/
def readSimpleEscape (e : Nat) : Option Nat :=
  if e = 0x22 then some 0x22
  else if e = 0x5C then some 0x5C
  else if e = 0x2F then some 0x2F
  else if e = 0x62 then some 0x08
  else if e = 0x66 then some 0x0C
  else if e = 0x6E then some 0x0A
  else if e = 0x72 then some 0x0D
  else if e = 0x74 then some 0x09
  else none

/-- Reads the rest of a JSON string (RFC 8259, section 7) after its opening
quote, up to and including the closing quote: the string it denotes, as UTF-8,
and the input after it.  Control characters, an unknown escape, a `\u` escape
of a surrogate and bytes that are not valid UTF-8 are rejected.  Every step
consumes at least one byte, so a fuel of the input length suffices. -/
def readStringBody : Nat → GoString → Option (GoString × GoString)
  | _, [] => none
  | 0, _ :: _ => none
  | fuel + 1, b :: rest =>
    if b = 0x22 then some ([], rest)
    else if b = 0x5C then
      match rest with
      | [] => none
      | e :: t =>
        if e = 0x75 then
          match readHex4 (t.take 4) with
          | none => none
          | some r =>
            if 0xD800 ≤ r ∧ r ≤ 0xDFFF then none
            else (readStringBody fuel (t.drop 4)).map (fun p => (encodeRune r ++ p.1, p.2))
        else
          match readSimpleEscape e with
          | none => none
          | some v => (readStringBody fuel t).map (fun p => (v :: p.1, p.2))
    else if b < 0x20 then none
    else if b < RuneSelf then (readStringBody fuel rest).map (fun p => (b :: p.1, p.2))
    else
      let (c, size) := DecodeRuneInString ((b :: rest).take 4)
      if c = RuneError ∧ size = 1 then none
      else
        (readStringBody fuel ((b :: rest).drop size)).map
          (fun p => ((b :: rest).take size ++ p.1, p.2))

/-- Reads a JSON string: the string it denotes and the input after it. -/
def readString (s : GoString) : Option (GoString × GoString) :=
  match s with
  | [] => none
  | q :: rest => if q = 0x22 then readStringBody rest.length rest else none

/-- The byte `b` is a decimal digit. -/
def isDigit (b : Nat) : Bool := decide (0x30 ≤ b) && decide (b ≤ 0x39)

/-- The input starts with a decimal digit. -/
def startsWithDigit : GoString → Bool
  | [] => false
  | d :: _ => isDigit d

/-- Reads decimal digits as long as there are any: the number they denote after
the digits `acc` read before, and the input after them. -/
def readDigits : Nat → GoString → Nat × GoString
  | acc, [] => (acc, [])
  | acc, d :: rest =>
    if isDigit d then readDigits (acc * 10 + (d - 0x30)) rest else (acc, d :: rest)

/-- Reads the digits of a JSON number without fraction and exponent: at least
one digit, and no leading zero before another digit. -/
def readNat (s : GoString) : Option (Nat × GoString) :=
  match s with
  | [] => none
  | d :: rest =>
    if ¬ isDigit d then none
    else if d = 0x30 ∧ startsWithDigit rest then none
    else some (readDigits 0 (d :: rest))

/-- Reads a JSON integer: an optional minus sign and the digits. -/
def readInt (s : GoString) : Option (Int × GoString) :=
  match s with
  | [] => none
  | c :: rest =>
    if c = 0x2D then (readNat rest).map (fun p => (-(p.1 : Int), p.2))
    else (readNat (c :: rest)).map (fun p => ((p.1 : Int), p.2))

/-- Reads the fixed text `tok`: the input after it, or failure. -/
def expect : GoString → GoString → Option GoString
  | [], s => some s
  | _ :: _, [] => none
  | t :: ts, c :: s => if t = c then expect ts s else none

/-- Reads an object with exactly the integer fields `line` and `character`. -/
def readPosition (s : GoString) : Option (VSPosition × GoString) :=
  (expect (utf8 "\x7b\"line\":") s).bind fun s1 =>
  (readInt s1).bind fun (line, s2) =>
  (expect (utf8 ",\"character\":") s2).bind fun s3 =>
  (readInt s3).bind fun (character, s4) =>
  (expect (utf8 "\x7d") s4).bind fun s5 =>
  some ({ Line := line, Character := character }, s5)

/-- Reads an object with exactly the fields `start` and `end`, a position
each. -/
def readRange (s : GoString) : Option (VSRange × GoString) :=
  (expect (utf8 "\x7b\"start\":") s).bind fun s1 =>
  (readPosition s1).bind fun (start, s2) =>
  (expect (utf8 ",\"end\":") s2).bind fun s3 =>
  (readPosition s3).bind fun (stop, s4) =>
  (expect (utf8 "\x7d") s4).bind fun s5 =>
  some ({ Start := start, End := stop }, s5)

/-- Reads an object with exactly the string field `name` and the field
`range`. -/
def readRecord (s : GoString) : Option (GoImport × GoString) :=
  (expect (utf8 "\x7b\"name\":") s).bind fun s1 =>
  (readString s1).bind fun (name, s2) =>
  (expect (utf8 ",\"range\":") s2).bind fun s3 =>
  (readRange s3).bind fun (range, s4) =>
  (expect (utf8 "\x7d") s4).bind fun s5 =>
  some ({ Name := name, Range := range }, s5)

/-- Reads the elements of an array after the first one, each after a comma, up
to and including the closing bracket.  Every step consumes at least one byte,
so a fuel of the input length suffices. -/
def readMoreRecords : Nat → GoString → Option (List GoImport × GoString)
  | _, [] => none
  | 0, _ :: _ => none
  | fuel + 1, c :: rest =>
    if c = 0x5D then some ([], rest)
    else if c = 0x2C then
      (readRecord rest).bind fun (r, s1) =>
      (readMoreRecords fuel s1).map fun p => (r :: p.1, p.2)
    else none

/-- Reads the success encoding of the specification: a JSON array of objects
with the string field `name` and the field `range`, which holds `start` and
`end`, each an object with the integer fields `line` and `character`.  The
text is read by the grammar of RFC 8259, without insignificant whitespace and
with the fields in this order; the result is the sequence of records that the
text denotes, or failure when the text is not of this form. -/
def readPayload (s : GoString) : Option (List GoImport) :=
  match s with
  | [] => none
  | c :: rest =>
    if c ≠ 0x5B then none
    else
      match rest with
      | [] => none
      | c2 :: rest2 =>
        if c2 = 0x5D then (if rest2 = [] then some [] else none)
        else
          (readRecord (c2 :: rest2)).bind fun (r, s1) =>
          (readMoreRecords s1.length s1).bind fun (more, s2) =>
          if s2 = [] then some (r :: more) else none

/-- The loop of `coerceUTF8` on the rest `s` of the string (the fuel is that of
`appendStringLoop`). -/
def coerceLoop : Nat → GoString → GoString
  | _, [] => []
  | 0, _ :: _ => []
  | fuel + 1, b :: rest =>
    if b < RuneSelf then b :: coerceLoop fuel rest
    else
      let n := min (b :: rest).length 4
      let (c, size) := DecodeRuneInString ((b :: rest).take n)
      if c = RuneError ∧ size = 1 then [0xEF, 0xBF, 0xBD] ++ coerceLoop fuel rest
      else (b :: rest).take size ++ coerceLoop fuel ((b :: rest).drop size)

/-- The string `s` coerced to valid UTF-8: every byte that starts no valid
UTF-8 encoding is replaced by U+FFFD, everything else is kept. -/
def coerceUTF8 (s : GoString) : GoString := coerceLoop s.length s

/-- The body of `DecodeRuneInString` as a function of the length `n` of the
input and of its first four bytes (0 where the input is shorter). -/
def decodeCore (n s0 s1 s2 s3 : Nat) : Nat × Nat :=
  if n < 1 then (RuneError, 0) else
  let x := first s0
  if x ≥ 0xF0 then
    (if x = 0xF1 then RuneError else s0, 1)
  else
    let sz := x &&& 7
    let accept := acceptRanges (x >>> 4)
    if n < sz then (RuneError, 1) else
    if s1 < accept.1 ∨ accept.2 < s1 then (RuneError, 1) else
    if sz ≤ 2 then (((s0 &&& 0x1F) <<< 6) ||| (s1 &&& 0x3F), 2) else
    if s2 < 0x80 ∨ 0xBF < s2 then (RuneError, 1) else
    if sz ≤ 3 then
      (((s0 &&& 0x0F) <<< 12) ||| ((s1 &&& 0x3F) <<< 6) ||| (s2 &&& 0x3F), 3)
    else
    if s3 < 0x80 ∨ 0xBF < s3 then (RuneError, 1) else
    (((s0 &&& 0x07) <<< 18) ||| ((s1 &&& 0x3F) <<< 12) ||| ((s2 &&& 0x3F) <<< 6)
      ||| (s3 &&& 0x3F), 4)

/-! ## Sample runs -/

/-- The parse result for the source text `src` with the declarations `decls`:
the positions of the file table of `src`, and as `Imports` the specs of all
declarations in order. -/
def sampleParse (src : GoString) (decls : List GenDecl) (err : GoError) : Parsed :=
  { Position := (tokenFileOf src).Position,
    file := { Decls := decls, Imports := decls.flatMap (fun d => d.Specs) },
    err := err }

/-- A source text whose only declaration of an import is the path "fmt", on
line 3 from column 8 to column 13. -/
def fmtSource : GoString := utf8 "package p\n\nimport \"fmt\"\n"

/-- The declaration the parser yields for `fmtSource`: no local name, the path
literal from offset 18 to offset 23 (positions 19 and 24, the file base being
1). -/
def fmtSpec : ImportSpec :=
  { Name := none, Path := { ValuePos := 19, ValueEnd := 24, Value := utf8 "\"fmt\"" },
    EndPos := 0 }

/-- The record expected for `fmtSource`: the name fmt and the editor range
from (2, 7) to (2, 12). -/
def fmtRecord : GoImport :=
  { Name := utf8 "fmt",
    Range := { Start := { Line := 2, Character := 7 }, End := { Line := 2, Character := 12 } } }

/-- The result of the parser on `fmtSource`. -/
def fmtParsed : Parsed :=
  sampleParse fmtSource [{ TokPos := 12, Lparen := 0, Specs := [fmtSpec], Rparen := 0 }] none

/-- A source text with an aliased declaration, `f "fmt"` after the keyword on
line 2: the alias stands at column 8 and the path literal at columns 10 to
15. -/
def aliasSource : GoString := utf8 "package p\nimport f \"fmt\"\n"

/-- The declaration the parser yields for `aliasSource`: the local name `f` at
offset 17 and the path literal from offset 19 to offset 24. -/
def aliasSpec : ImportSpec :=
  { Name := some { NamePos := 18, Name := utf8 "f" },
    Path := { ValuePos := 20, ValueEnd := 25, Value := utf8 "\"fmt\"" }, EndPos := 0 }

/-- The record that a run on `aliasSource` yields: its range starts at the
alias, editor position (1, 7). -/
def aliasRecord : GoImport :=
  { Name := utf8 "fmt",
    Range := { Start := { Line := 1, Character := 7 }, End := { Line := 1, Character := 14 } } }

/-- The result of the parser on `aliasSource`. -/
def aliasParsed : Parsed :=
  sampleParse aliasSource [{ TokPos := 11, Lparen := 0, Specs := [aliasSpec], Rparen := 0 }]
    none

/-- A source text with the grouped declarations "a", "b" and "c", one a line
after a tab, on lines 3 to 5. -/
def groupSource : GoString := utf8 "package p\nimport (\n\t\"a\"\n\t\"b\"\n\t\"c\"\n)\n"

/-- The result of the parser on `groupSource`: one declaration with
parentheses that holds the three specs in textual order. -/
def groupParsed : Parsed :=
  sampleParse groupSource
    [{ TokPos := 11, Lparen := 18,
       Specs :=
        [ { Name := none, Path := { ValuePos := 21, ValueEnd := 24, Value := utf8 "\"a\"" },
            EndPos := 0 },
          { Name := none, Path := { ValuePos := 26, ValueEnd := 29, Value := utf8 "\"b\"" },
            EndPos := 0 },
          { Name := none, Path := { ValuePos := 31, ValueEnd := 34, Value := utf8 "\"c\"" },
            EndPos := 0 } ],
       Rparen := 35 }]
    none

/-- A source text whose path literal stands between parentheses on one line:
the closing parenthesis directly follows the literal, at column 14. -/
def parenSource : GoString := utf8 "package p\nimport (\"fmt\")\n"

/-- The declaration the parser yields for `parenSource`: the path literal from
offset 18 to offset 23. -/
def parenSpec : ImportSpec :=
  { Name := none, Path := { ValuePos := 19, ValueEnd := 24, Value := utf8 "\"fmt\"" },
    EndPos := 0 }

/-- The enclosing declaration of `parenSpec`: the keyword at offset 10, the
parentheses at offsets 17 and 23. -/
def parenDecl : GenDecl :=
  { TokPos := 11, Lparen := 18, Specs := [parenSpec], Rparen := 24 }

/-- The result of the parser on `parenSource`. -/
def parenParsed : Parsed := sampleParse parenSource [parenDecl] none

/-- A source text whose path is a raw literal with a carriage return inside:
the literal takes the six bytes from offset 17 to offset 22, columns 8 to 13 of
line 2. -/
def rawSource : GoString := utf8 "package p\nimport \x60fm\rt\x60\n"

/-- The declaration the parser yields for `rawSource`: the scanner strips the
carriage return from the text of the literal (five bytes are left), and the
recorded end is the position after the sixth byte of the token. -/
def rawSpec : ImportSpec :=
  { Name := none, Path := { ValuePos := 18, ValueEnd := 24, Value := utf8 "\x60fmt\x60" },
    EndPos := 0 }

/-- The result of the parser on `rawSource`. -/
def rawParsed : Parsed :=
  sampleParse rawSource [{ TokPos := 11, Lparen := 0, Specs := [rawSpec], Rparen := 0 }] none

/-- A source text whose path literal holds the escape of the byte 0xFF, which
is no valid UTF-8. -/
def byteEscapeSource : GoString := utf8 "package p\nimport \"a\\xffb\"\n"

/-- The declaration the parser yields for `byteEscapeSource`: the path literal
of eight bytes from offset 17 to offset 24. -/
def byteEscapeSpec : ImportSpec :=
  { Name := none, Path := { ValuePos := 18, ValueEnd := 26, Value := utf8 "\"a\\xffb\"" },
    EndPos := 0 }

/-- The result of the parser on `byteEscapeSource`. -/
def byteEscapeParsed : Parsed :=
  sampleParse byteEscapeSource
    [{ TokPos := 11, Lparen := 0, Specs := [byteEscapeSpec], Rparen := 0 }] none

/-- A source text whose path literal holds an escaped double quote and an
angle bracket. -/
def quoteSource : GoString := utf8 "package p\nimport \"a\\\"b<\"\n"

/-- The declaration the parser yields for `quoteSource`: the path literal of
seven bytes from offset 17 to offset 23. -/
def quoteSpec : ImportSpec :=
  { Name := none, Path := { ValuePos := 18, ValueEnd := 25, Value := utf8 "\"a\\\"b<\"" },
    EndPos := 0 }

/-- The result of the parser on `quoteSource`. -/
def quoteParsed : Parsed :=
  sampleParse quoteSource [{ TokPos := 11, Lparen := 0, Specs := [quoteSpec], Rparen := 0 }] none

/-- A source text without declarations of imports. -/
def bareSource : GoString := utf8 "package p\n"

/-- The result of the parser on `bareSource`. -/
def bareParsed : Parsed := sampleParse bareSource [] none

/-- A source text whose path literal is not terminated. -/
def brokenSource : GoString := utf8 "package p\nimport \"fmt\n"

/-- The result of the parser on `brokenSource`: the scanner error, together
with the partial file that Go returns beside it. -/
def brokenParsed : Parsed :=
  sampleParse brokenSource
    [{ TokPos := 11, Lparen := 0,
       Specs := [ { Name := none,
                    Path := { ValuePos := 18, ValueEnd := 22, Value := utf8 "\"fmt" },
                    EndPos := 0 } ],
       Rparen := 0 }]
    (some (utf8 "src.go:2:8: string literal not terminated"))

/-- A source text whose second path literal holds an unknown escape
sequence. -/
def badEscapeSource : GoString :=
  utf8 "package p\nimport \"a\"\nimport \"\\q\"\nimport \"c\"\n"

/-- A parse result for `badEscapeSource` without error: the three declarations,
the second of which `strconv.Unquote` rejects. -/
def badEscapeParsed : Parsed :=
  sampleParse badEscapeSource
    [ { TokPos := 11, Lparen := 0,
        Specs := [ { Name := none,
                     Path := { ValuePos := 18, ValueEnd := 21, Value := utf8 "\"a\"" },
                     EndPos := 0 } ],
        Rparen := 0 },
      { TokPos := 22, Lparen := 0,
        Specs := [ { Name := none,
                     Path := { ValuePos := 29, ValueEnd := 33, Value := utf8 "\"\\q\"" },
                     EndPos := 0 } ],
        Rparen := 0 },
      { TokPos := 34, Lparen := 0,
        Specs := [ { Name := none,
                     Path := { ValuePos := 41, ValueEnd := 44, Value := utf8 "\"c\"" },
                     EndPos := 0 } ],
        Rparen := 0 } ]
    none

/-! ## Properties of the loop and of `main` -/

theorem wrapInt_of_range (w : Nat) (x : Int) (hw : 0 < w)
    (hlo : -(2 : Int) ^ (w - 1) ≤ x) (hhi : x < 2 ^ (w - 1)) : wrapInt w x = x := by
  unfold wrapInt
  have hpow : (2 : Int) ^ w = 2 * 2 ^ (w - 1) := by
    obtain ⟨k, rfl⟩ : ∃ k, w = k + 1 := ⟨w - 1, by omega⟩
    simp [pow_succ, mul_comm]
  have hpos : (0 : Int) < 2 ^ (w - 1) := by positivity
  rw [hpow, Int.emod_eq_of_lt (by omega) (by omega)]
  omega

theorem importLoop_congr (env1 env2 : Env) (fp : Int → Position)
    (hbits : env1.intBits = env2.intBits) (hunq : env1.Unquote = env2.Unquote) :
    ∀ (imports : List ImportSpec) (results : GoSlice GoImport),
      importLoop env1 fp imports results = importLoop env2 fp imports results := by
  intro imports
  induction imports with
  | nil => intro results; simp only [importLoop]
  | cons imp rest ih =>
    intro results
    simp only [importLoop, hbits, hunq, ih]

theorem main_congr (env1 env2 : Env) (stdin : GoString)
    (hbits : env1.intBits = env2.intBits) (hunq : env1.Unquote = env2.Unquote)
    (hmarshal : env1.Marshal = env2.Marshal)
    (hposition : (env1.ParseFile stdin).Position = (env2.ParseFile stdin).Position)
    (himports : (env1.ParseFile stdin).file.Imports = (env2.ParseFile stdin).file.Imports)
    (herr : (env1.ParseFile stdin).err = (env2.ParseFile stdin).err) :
    main env1 stdin = main env2 stdin := by
  simp only [main, hmarshal, hposition, himports, herr,
    importLoop_congr env1 env2 _ hbits hunq]

theorem importLoop_ok (env : Env) (fp : Int → Position) :
    ∀ (imports : List ImportSpec) (acc : List GoImport),
      (∀ imp ∈ imports, (env.Unquote imp.Path.Value).2 = none) →
      importLoop env fp imports (some acc)
        = .ok (some (acc ++ imports.map (recordOf env fp))) := by
  intro imports
  induction imports with
  | nil => intro acc _; simp [importLoop]
  | cons imp rest ih =>
    intro acc h
    have h1 : (env.Unquote imp.Path.Value).2 = none := h imp (List.mem_cons_self _ _)
    have h2 : ∀ x ∈ rest, (env.Unquote x.Path.Value).2 = none :=
      fun x hx => h x (List.mem_cons_of_mem _ hx)
    rcases hu : env.Unquote imp.Path.Value with ⟨name, nameErr⟩
    rw [hu] at h1
    simp only at h1
    subst h1
    simp only [importLoop, hu, GoSlice.append, ne_eq, not_true_eq_false, if_false]
    rw [ih _ h2]
    simp [recordOf, hu]

theorem importLoop_error (env : Env) (fp : Int → Position) :
    ∀ (pre : List ImportSpec) (acc : List GoImport) (bad : ImportSpec)
      (post : List ImportSpec) (msg : GoString),
      (∀ imp ∈ pre, (env.Unquote imp.Path.Value).2 = none) →
      (env.Unquote bad.Path.Value).2 = some msg →
      importLoop env fp (pre ++ bad :: post) (some acc)
        = .error { stdout := [], stderr := msg, term := .exited 1 } := by
  intro pre
  induction pre with
  | nil =>
    intro acc bad post msg _ hbad
    rcases hu : env.Unquote bad.Path.Value with ⟨name, nameErr⟩
    rw [hu] at hbad
    simp only at hbad
    subst hbad
    simp [importLoop, hu, writeErrorAndExit]
  | cons imp rest ih =>
    intro acc bad post msg hpre hbad
    have h1 : (env.Unquote imp.Path.Value).2 = none := hpre imp (List.mem_cons_self _ _)
    have h2 : ∀ x ∈ rest, (env.Unquote x.Path.Value).2 = none :=
      fun x hx => hpre x (List.mem_cons_of_mem _ hx)
    rcases hu : env.Unquote imp.Path.Value with ⟨name, nameErr⟩
    rw [hu] at h1
    simp only at h1
    subst h1
    simp only [List.cons_append, importLoop, hu, GoSlice.append, ne_eq, not_true_eq_false,
      if_false]
    exact ih _ bad post msg h2 hbad

theorem first_failure (env : Env) :
    ∀ (imports : List ImportSpec),
      (∃ imp ∈ imports, (env.Unquote imp.Path.Value).2 ≠ none) →
      ∃ pre bad post msg, imports = pre ++ bad :: post ∧
        (∀ imp ∈ pre, (env.Unquote imp.Path.Value).2 = none) ∧
        (env.Unquote bad.Path.Value).2 = some msg := by
  intro imports
  induction imports with
  | nil => rintro ⟨imp, hmem, _⟩; cases hmem
  | cons x rest ih =>
    rintro ⟨imp, hmem, hne⟩
    cases hx : (env.Unquote x.Path.Value).2 with
    | some msg => exact ⟨[], x, rest, msg, rfl, by simp, hx⟩
    | none =>
      have hrest : ∃ imp ∈ rest, (env.Unquote imp.Path.Value).2 ≠ none := by
        rcases List.mem_cons.mp hmem with h | h
        · subst h; exact absurd hx hne
        · exact ⟨imp, h, hne⟩
      obtain ⟨pre, bad, post, msg, hsplit, hpre, hbad⟩ := ih hrest
      refine ⟨x :: pre, bad, post, msg, by simp [hsplit], ?_, hbad⟩
      intro y hy
      rcases List.mem_cons.mp hy with h | h
      · subst h; exact hx
      · exact hpre y h

theorem importLoop_ok_inv (env : Env) (fp : Int → Position) (imports : List ImportSpec)
    (acc : List GoImport) (results : GoSlice GoImport)
    (h : importLoop env fp imports (some acc) = .ok results) :
    (∀ imp ∈ imports, (env.Unquote imp.Path.Value).2 = none) ∧
      results = some (acc ++ imports.map (recordOf env fp)) := by
  by_cases hall : ∀ imp ∈ imports, (env.Unquote imp.Path.Value).2 = none
  · refine ⟨hall, ?_⟩
    rw [importLoop_ok env fp imports acc hall] at h
    injection h with h
    exact h.symm
  · exfalso
    have hex : ∃ imp ∈ imports, (env.Unquote imp.Path.Value).2 ≠ none := by
      by_contra hcon
      apply hall
      intro imp himp
      by_contra hne
      exact hcon ⟨imp, himp, hne⟩
    obtain ⟨pre, bad, post, msg, hsplit, hpre, hbad⟩ := first_failure env imports hex
    rw [hsplit, importLoop_error env fp pre acc bad post msg hpre hbad] at h
    cases h

theorem main_of_parse_error (env : Env) (stdin msg : GoString)
    (herr : (env.ParseFile stdin).err = some msg) :
    main env stdin = { stdout := [], stderr := msg, term := .exited 1 } := by
  simp [main, herr, writeErrorAndExit]

theorem main_of_loop_error (env : Env) (stdin : GoString) (halted : Outcome)
    (hparse : (env.ParseFile stdin).err = none)
    (hloop : importLoop env (env.ParseFile stdin).Position (env.ParseFile stdin).file.Imports
      GoSlice.make0 = .error halted) :
    main env stdin = halted := by
  simp [main, hparse, hloop]

theorem main_of_encoded (env : Env) (stdin : GoString) (results : GoSlice GoImport)
    (hparse : (env.ParseFile stdin).err = none)
    (hloop : importLoop env (env.ParseFile stdin).Position (env.ParseFile stdin).file.Imports
      GoSlice.make0 = .ok results)
    (henc : (env.Marshal results).2 = none) :
    main env stdin = { stdout := (env.Marshal results).1, stderr := [], term := .returned } := by
  rcases hm : env.Marshal results with ⟨result, encErr⟩
  rw [hm] at henc
  simp only at henc
  subst henc
  simp [main, hparse, hloop, hm]

theorem main_of_encoder_error (env : Env) (stdin : GoString) (results : GoSlice GoImport)
    (hparse : (env.ParseFile stdin).err = none)
    (hloop : importLoop env (env.ParseFile stdin).Position (env.ParseFile stdin).file.Imports
      GoSlice.make0 = .ok results)
    (henc : (env.Marshal results).2 ≠ none) :
    main env stdin = { stdout := [], stderr := [], term := .nilDereference } := by
  rcases hm : env.Marshal results with ⟨result, encErr⟩
  rw [hm] at henc
  simp only at henc
  simp [main, hparse, hloop, hm, henc, writeErrorAndExit]


theorem indexOf_terminator (q : Nat) : ∀ (s : GoString), (∀ b ∈ s, b ≠ q) →
    (s ++ [q]).indexOf? q = some s.length := by
  intro s
  induction s with
  | nil => intro _; simp [List.indexOf?, List.findIdx?_cons]
  | cons b rest ih =>
    intro h
    have hb : b ≠ q := h b (List.mem_cons_self _ _)
    have hrest := ih (fun x hx => h x (List.mem_cons_of_mem _ hx))
    simp only [List.indexOf?] at hrest ⊢
    simp [List.findIdx?_cons, hb, hrest]

theorem contains_false_of_forall_ne (q : Nat) (s : GoString) (h : ∀ b ∈ s, b ≠ q) :
    s.contains q = false := by
  simp only [List.contains_eq_any_beq, List.any_eq_false, beq_iff_eq]
  intro x hx hq
  exact h x hx hq.symm

theorem strconvUnquote_plain (s : GoString)
    (hs : ∀ b ∈ s, b ≠ 0x22 ∧ b ≠ 0x5C ∧ b ≠ 0x0A) (hv : ValidString s = true) :
    strconvUnquote ([0x22] ++ s ++ [0x22]) = (s, none) := by
  have hidx := indexOf_terminator 0x22 s (fun b hb => (hs b hb).1)
  have h5C : ([0x22] ++ s ++ [0x22]).contains 0x5C = false :=
    contains_false_of_forall_ne _ _ (by
      intro b hb
      simp only [List.mem_append, List.mem_singleton] at hb
      rcases hb with (hb | hb) | hb
      · omega
      · exact (hs b hb).2.1
      · omega)
  have h0A : ([0x22] ++ s ++ [0x22]).contains 0x0A = false :=
    contains_false_of_forall_ne _ _ (by
      intro b hb
      simp only [List.mem_append, List.mem_singleton] at hb
      rcases hb with (hb | hb) | hb
      · omega
      · exact (hs b hb).2.2
      · omega)
  have htake : ([0x22] ++ s ++ [0x22]).take (s.length + 2) = [0x22] ++ s ++ [0x22] :=
    List.take_of_length_le (by simp)
  have hdrop : ([0x22] ++ s ++ [0x22]).drop (s.length + 2) = [] :=
    List.drop_of_length_le (by simp)
  have hinner : (([0x22] ++ s ++ [0x22]).take (s.length + 2 - 1)).drop 1 = s := by
    have : s.length + 2 - 1 = ([0x22] ++ s).length := by simp
    rw [this, List.take_left']
    · simp
    · rfl
  have hlen : ¬ (([0x22] ++ s ++ [0x22]).length < 2) := by simp
  have hdrop1 : ([0x22] ++ s ++ [0x22]).drop 1 = s ++ [0x22] := by simp
  have hq : ([0x22] ++ s ++ [0x22]).getD 0 0 = 0x22 := by simp
  unfold strconvUnquote unquote
  simp only [hlen, if_false, hq, hdrop1, hidx, htake, hdrop, hinner, h5C, h0A, hv]
  simp

theorem encodeValue_position (p : VSPosition) : encodeValue p.toJValue = positionText p := by
  have e1 : utf8 "line" = [108, 105, 110, 101] := by decide
  have e2 : utf8 "character" = [99, 104, 97, 114, 97, 99, 116, 101, 114] := by decide
  have e3 : utf8 "\x7b\"line\":" = [123, 34, 108, 105, 110, 101, 34, 58] := by decide
  have e4 : utf8 ",\"character\":" = [44, 34, 99, 104, 97, 114, 97, 99, 116, 101, 114, 34, 58] := by
    decide
  have e5 : utf8 "\x7d" = [125] := by decide
  simp [VSPosition.toJValue, positionText, encodeValue, encodeFields, e1, e2, e3, e4, e5]

theorem encodeValue_range (r : VSRange) : encodeValue r.toJValue = rangeText r := by
  have e1 : utf8 "start" = [115, 116, 97, 114, 116] := by decide
  have e2 : utf8 "end" = [101, 110, 100] := by decide
  have e3 : utf8 "\x7b\"start\":" = [123, 34, 115, 116, 97, 114, 116, 34, 58] := by decide
  have e4 : utf8 ",\"end\":" = [44, 34, 101, 110, 100, 34, 58] := by decide
  have e5 : utf8 "\x7d" = [125] := by decide
  unfold VSRange.toJValue rangeText
  rw [encodeValue]
  simp only [encodeFields, encodeValue_position]
  simp [e1, e2, e3, e4, e5]

theorem encodeValue_record (g : GoImport) : encodeValue g.toJValue = recordText g := by
  have e1 : utf8 "name" = [110, 97, 109, 101] := by decide
  have e2 : utf8 "range" = [114, 97, 110, 103, 101] := by decide
  have e3 : utf8 "\x7b\"name\":" = [123, 34, 110, 97, 109, 101, 34, 58] := by decide
  have e4 : utf8 ",\"range\":" = [44, 34, 114, 97, 110, 103, 101, 34, 58] := by decide
  have e5 : utf8 "\x7d" = [125] := by decide
  unfold GoImport.toJValue recordText
  rw [encodeValue]
  simp only [encodeFields, encodeValue_range]
  rw [encodeValue]
  simp [e1, e2, e3, e4, e5]

theorem encodeElems_rest (l : List GoImport) :
    encodeElems false (l.map GoImport.toJValue)
      = (l.map (fun g => [0x2C] ++ recordText g)).flatten := by
  induction l with
  | nil => simp [encodeElems]
  | cons g rest ih =>
    simp only [List.map, encodeElems, ih, encodeValue_record]
    simp

theorem intercalate_comma (x : GoString) (xs : List GoString) :
    List.intercalate [0x2C] (x :: xs) = x ++ (xs.map (fun y => [0x2C] ++ y)).flatten := by
  induction xs generalizing x with
  | nil => simp [List.intercalate]
  | cons y ys ih =>
    have := ih y
    simp only [List.intercalate, List.intersperse, List.flatten, List.map] at this ⊢
    simp [this]

theorem jsonMarshal_some (records : List GoImport) :
    jsonMarshal (some records) = (payloadText records, none) := by
  have e1 : utf8 "[" = [0x5B] := by decide
  have e2 : utf8 "]" = [0x5D] := by decide
  have e3 : utf8 "," = [0x2C] := by decide
  cases records with
  | nil => simp [jsonMarshal, payloadText, encodeValue, encodeElems, e1, e2, List.intercalate]
  | cons g rest =>
    unfold jsonMarshal payloadText
    simp only [Option.map, List.map]
    rw [encodeValue]
    simp only [encodeElems, e1, e2, e3, intercalate_comma, encodeElems_rest, encodeValue_record]
    simp [List.map_map, Function.comp_def]

theorem appendStringLoop_safe : ∀ (s : GoString) (fuel : Nat), s.length ≤ fuel →
    (∀ b ∈ s, htmlSafeSet b = true) → appendStringLoop fuel s = s := by
  intro s
  induction s with
  | nil => intro fuel _ _; cases fuel <;> simp [appendStringLoop]
  | cons b rest ih =>
    intro fuel hfuel hsafe
    obtain ⟨k, rfl⟩ : ∃ k, fuel = k + 1 := ⟨fuel - 1, by simp at hfuel; omega⟩
    have hb : htmlSafeSet b = true := hsafe b (List.mem_cons_self _ _)
    have hlt : b < RuneSelf := by
      simp [htmlSafeSet] at hb
      simp [RuneSelf]; omega
    simp only [appendStringLoop, hlt, if_true, hb]
    rw [ih k (by simp at hfuel; omega) (fun x hx => hsafe x (List.mem_cons_of_mem _ hx))]

theorem appendString_safe (s : GoString) (h : ∀ b ∈ s, htmlSafeSet b = true) :
    appendString s = [0x22] ++ s ++ [0x22] := by
  simp [appendString, appendStringLoop_safe s s.length (le_refl _) h]

theorem strconvUnquote_raw (s : GoString)
    (hs : ∀ b ∈ s, b ≠ 0x60 ∧ b ≠ 0x0D) :
    strconvUnquote ([0x60] ++ s ++ [0x60]) = (s, none) := by
  have hidx := indexOf_terminator 0x60 s (fun b hb => (hs b hb).1)
  have h0D : ([0x60] ++ s ++ [0x60]).contains 0x0D = false :=
    contains_false_of_forall_ne _ _ (by
      intro b hb
      simp only [List.mem_append, List.mem_singleton] at hb
      rcases hb with (hb | hb) | hb
      · omega
      · exact (hs b hb).2
      · omega)
  have htake : ([0x60] ++ s ++ [0x60]).take (s.length + 2) = [0x60] ++ s ++ [0x60] :=
    List.take_of_length_le (by simp)
  have hdrop : ([0x60] ++ s ++ [0x60]).drop (s.length + 2) = [] :=
    List.drop_of_length_le (by simp)
  have hinner : (([0x60] ++ s ++ [0x60]).take (s.length + 2 - 1)).drop 1 = s := by
    have : s.length + 2 - 1 = ([0x60] ++ s).length := by simp
    rw [this, List.take_left']
    · simp
    · rfl
  have hlen : ¬ (([0x60] ++ s ++ [0x60]).length < 2) := by simp
  have hdrop1 : ([0x60] ++ s ++ [0x60]).drop 1 = s ++ [0x60] := by simp
  have hq : ([0x60] ++ s ++ [0x60]).getD 0 0 = 0x60 := by simp
  unfold strconvUnquote unquote
  simp only [hlen, if_false, hq, hdrop1, hidx, htake, hdrop, hinner, h0D]
  simp

/-! ## Fuel of the loops and the outcomes of `main` -/

theorem DecodeRuneInString_size_pos (s : GoString) (h : s ≠ []) :
    1 ≤ (DecodeRuneInString s).2 := by
  have hlen : ¬ s.length < 1 := by
    cases s with
    | nil => exact absurd rfl h
    | cons b rest => simp
  unfold DecodeRuneInString
  simp only [hlen, if_false]
  repeat' split
  all_goals simp

theorem appendStringLoop_fuel : ∀ (fuel1 fuel2 : Nat) (s : GoString),
    s.length ≤ fuel1 → s.length ≤ fuel2 →
    appendStringLoop fuel1 s = appendStringLoop fuel2 s := by
  intro fuel1
  induction fuel1 with
  | zero =>
    intro fuel2 s h1 _
    have : s = [] := List.length_eq_zero.mp (by omega)
    subst this
    cases fuel2 <;> simp [appendStringLoop]
  | succ k ih =>
    intro fuel2 s h1 h2
    cases s with
    | nil => cases fuel2 <;> simp [appendStringLoop]
    | cons b rest =>
      obtain ⟨m, rfl⟩ : ∃ m, fuel2 = m + 1 := ⟨fuel2 - 1, by simp at h2; omega⟩
      simp only [List.length_cons] at h1 h2
      have hrest := ih m rest (by omega) (by omega)
      have hsize := DecodeRuneInString_size_pos ((b :: rest).take (min (b :: rest).length 4))
        (by simp)
      simp only [List.length_cons] at hsize
      have hdrop := ih m ((b :: rest).drop
        (DecodeRuneInString ((b :: rest).take (min (b :: rest).length 4))).2)
        (by simp only [List.length_drop, List.length_cons]; omega)
        (by simp only [List.length_drop, List.length_cons]; omega)
      simp only [appendStringLoop, hrest, hdrop]

theorem validStringLoop_fuel : ∀ (fuel1 fuel2 : Nat) (s : GoString),
    s.length ≤ fuel1 → s.length ≤ fuel2 →
    validStringLoop fuel1 s = validStringLoop fuel2 s := by
  intro fuel1
  induction fuel1 with
  | zero =>
    intro fuel2 s h1 _
    have : s = [] := List.length_eq_zero.mp (by omega)
    subst this
    cases fuel2 <;> simp [validStringLoop]
  | succ k ih =>
    intro fuel2 s h1 h2
    cases s with
    | nil => cases fuel2 <;> simp [validStringLoop]
    | cons b rest =>
      obtain ⟨m, rfl⟩ : ∃ m, fuel2 = m + 1 := ⟨fuel2 - 1, by simp at h2; omega⟩
      simp only [List.length_cons] at h1 h2
      have h0 := ih m rest (by omega) (by omega)
      have hd : ∀ n, validStringLoop k (rest.drop n) = validStringLoop m (rest.drop n) :=
        fun n => ih m (rest.drop n) (by simp only [List.length_drop]; omega)
          (by simp only [List.length_drop]; omega)
      simp only [validStringLoop, h0, hd]

theorem some_triple_tail {α β γ : Type} {a a2 : α} {b b2 : β} {c c2 : γ}
    (h : some (a, b, c) = some (a2, b2, c2)) : c2 = c := by
  cases h; rfl

theorem unquoteHexEscape_tail_le (e : Nat) (t : GoString) (r : Nat) (multibyte : Bool)
    (rem : GoString) (h : unquoteHexEscape e t = some (r, multibyte, rem)) :
    rem.length ≤ t.length := by
  unfold unquoteHexEscape at h
  simp only at h
  generalize (if e = 0x78 then 2 else if e = 0x75 then 4 else 8) = n at h
  by_cases hn : t.length < n
  · rw [if_pos hn] at h; cases h
  rw [if_neg hn] at h
  cases hv : hexValue (t.take n) 0 with
  | none => rw [hv] at h; cases h
  | some v =>
    rw [hv] at h
    simp only at h
    by_cases hx : e = 0x78
    · rw [if_pos hx] at h; rw [some_triple_tail h, List.length_drop]; omega
    rw [if_neg hx] at h
    by_cases hr : ¬ ValidRune v
    · rw [if_pos hr] at h; cases h
    rw [if_neg hr] at h
    rw [some_triple_tail h, List.length_drop]; omega

theorem unquoteOctalEscape_tail_le (e : Nat) (t : GoString) (r : Nat) (multibyte : Bool)
    (rem : GoString) (h : unquoteOctalEscape e t = some (r, multibyte, rem)) :
    rem.length ≤ t.length := by
  unfold unquoteOctalEscape at h
  by_cases hn : t.length < 2
  · rw [if_pos hn] at h; cases h
  rw [if_neg hn] at h
  cases hv : octalValue (t.take 2) (e - 0x30) with
  | none => rw [hv] at h; cases h
  | some v =>
    rw [hv] at h
    simp only at h
    by_cases hx : v > 255
    · rw [if_pos hx] at h; cases h
    rw [if_neg hx] at h
    rw [some_triple_tail h, List.length_drop]; omega

theorem unquoteEscape_tail_le (e : Nat) (t : GoString) (quote r : Nat) (multibyte : Bool)
    (rem : GoString) (h : unquoteEscape e t quote = some (r, multibyte, rem)) :
    rem.length ≤ t.length := by
  unfold unquoteEscape at h
  by_cases h0 : e = 0x61
  · rw [if_pos h0] at h; rw [some_triple_tail h]
  rw [if_neg h0] at h
  by_cases h1 : e = 0x62
  · rw [if_pos h1] at h; rw [some_triple_tail h]
  rw [if_neg h1] at h
  by_cases h2 : e = 0x66
  · rw [if_pos h2] at h; rw [some_triple_tail h]
  rw [if_neg h2] at h
  by_cases h3 : e = 0x6E
  · rw [if_pos h3] at h; rw [some_triple_tail h]
  rw [if_neg h3] at h
  by_cases h4 : e = 0x72
  · rw [if_pos h4] at h; rw [some_triple_tail h]
  rw [if_neg h4] at h
  by_cases h5 : e = 0x74
  · rw [if_pos h5] at h; rw [some_triple_tail h]
  rw [if_neg h5] at h
  by_cases h6 : e = 0x76
  · rw [if_pos h6] at h; rw [some_triple_tail h]
  rw [if_neg h6] at h
  by_cases hhex : e = 0x78 ∨ e = 0x75 ∨ e = 0x55
  · rw [if_pos hhex] at h; exact unquoteHexEscape_tail_le _ _ _ _ _ h
  rw [if_neg hhex] at h
  by_cases hoct : 0x30 ≤ e ∧ e ≤ 0x37
  · rw [if_pos hoct] at h; exact unquoteOctalEscape_tail_le _ _ _ _ _ h
  rw [if_neg hoct] at h
  by_cases hbs : e = 0x5C
  · rw [if_pos hbs] at h; rw [some_triple_tail h]
  rw [if_neg hbs] at h
  by_cases hq : e = 0x27 ∨ e = 0x22
  · rw [if_pos hq] at h
    by_cases hne : e ≠ quote
    · rw [if_pos hne] at h; cases h
    rw [if_neg hne] at h
    rw [some_triple_tail h]
  rw [if_neg hq] at h
  cases h

theorem UnquoteChar_tail_lt (s : GoString) (quote r : Nat) (multibyte : Bool) (rem : GoString)
    (h : UnquoteChar s quote = some (r, multibyte, rem)) : rem.length < s.length := by
  cases s with
  | nil => simp [UnquoteChar] at h
  | cons c rest =>
    have hsize := DecodeRuneInString_size_pos (c :: rest) (by simp)
    unfold UnquoteChar at h
    simp only at h
    by_cases h1 : c = quote ∧ (quote = 0x27 ∨ quote = 0x22)
    · rw [if_pos h1] at h
      cases h
    · rw [if_neg h1] at h
      by_cases h2 : c ≥ RuneSelf
      · rw [if_pos h2] at h
        simp only [Option.some.injEq, Prod.mk.injEq] at h
        obtain ⟨_, _, rfl⟩ := h
        simp only [List.length_drop, List.length_cons]
        omega
      · rw [if_neg h2] at h
        by_cases h3 : c ≠ 0x5C
        · rw [if_pos h3] at h
          simp only [Option.some.injEq, Prod.mk.injEq] at h
          obtain ⟨_, _, rfl⟩ := h
          simp
        · rw [if_neg h3] at h
          cases rest with
          | nil => cases h
          | cons e t =>
            simp only at h
            have := unquoteEscape_tail_le _ _ _ _ _ _ h
            simp only [List.length_cons]
            omega

theorem unquoteLoop_fuel (quote : Nat) : ∀ (fuel1 fuel2 : Nat) (s buf : GoString),
    s.length ≤ fuel1 → s.length ≤ fuel2 →
    unquoteLoop quote fuel1 s buf = unquoteLoop quote fuel2 s buf := by
  intro fuel1
  induction fuel1 with
  | zero =>
    intro fuel2 s buf h1 _
    have : s = [] := List.length_eq_zero.mp (by omega)
    subst this
    cases fuel2 <;> simp [unquoteLoop]
  | succ k ih =>
    intro fuel2 s buf h1 h2
    cases s with
    | nil => cases fuel2 <;> simp [unquoteLoop]
    | cons c rest =>
      obtain ⟨m, rfl⟩ : ∃ m, fuel2 = m + 1 := ⟨fuel2 - 1, by simp at h2; omega⟩
      simp only [List.length_cons] at h1 h2
      simp only [unquoteLoop]
      split
      · rfl
      · cases hu : UnquoteChar (c :: rest) quote with
        | none => rfl
        | some res =>
          obtain ⟨r, multibyte, rem⟩ := res
          have hlt := UnquoteChar_tail_lt _ _ _ _ _ hu
          simp only [List.length_cons] at hlt
          simp only
          split
          · rfl
          · split
            · rfl
            · exact ih m rem _ (by omega) (by omega)

theorem main_outcome_cases (env : Env) (stdin : GoString) :
    (∃ msg, main env stdin = { stdout := [], stderr := msg, term := .exited 1 }) ∨
    (∃ payload, main env stdin = { stdout := payload, stderr := [], term := .returned }) ∨
    (main env stdin = { stdout := [], stderr := [], term := .nilDereference } ∧
      (env.ParseFile stdin).err = none ∧
      ∃ results, importLoop env (env.ParseFile stdin).Position
          (env.ParseFile stdin).file.Imports GoSlice.make0 = .ok results ∧
        (env.Marshal results).2 ≠ none) := by
  cases hparse : (env.ParseFile stdin).err with
  | some msg => exact Or.inl ⟨msg, main_of_parse_error env stdin msg hparse⟩
  | none =>
    by_cases hall : ∀ imp ∈ (env.ParseFile stdin).file.Imports,
        (env.Unquote imp.Path.Value).2 = none
    · have hloop := importLoop_ok env (env.ParseFile stdin).Position _ [] hall
      rw [List.nil_append] at hloop
      cases henc : (env.Marshal (some ((env.ParseFile stdin).file.Imports.map
          (recordOf env (env.ParseFile stdin).Position)))).2 with
      | none => exact Or.inr (Or.inl ⟨_, main_of_encoded env stdin _ hparse hloop henc⟩)
      | some e =>
        exact Or.inr (Or.inr ⟨main_of_encoder_error env stdin _ hparse hloop (by simp [henc]),
          rfl, _, hloop, by simp [henc]⟩)
    · have hex : ∃ imp ∈ (env.ParseFile stdin).file.Imports,
          (env.Unquote imp.Path.Value).2 ≠ none := by
        by_contra hcon
        apply hall
        intro imp himp
        by_contra hne
        exact hcon ⟨imp, himp, hne⟩
      obtain ⟨pre, bad, post, msg, hsplit, hpre, hbad⟩ := first_failure env _ hex
      have hloop := importLoop_error env (env.ParseFile stdin).Position pre [] bad post msg
        hpre hbad
      rw [← hsplit] at hloop
      exact Or.inl ⟨msg, main_of_loop_error env stdin _ hparse hloop⟩

/-! ## Reading back the numbers -/

theorem digitChar_toNat (d : Nat) (h : d < 10) : (Nat.digitChar d).toNat = 0x30 + d := by
  have : ∀ d, d < 10 → (Nat.digitChar d).toNat = 0x30 + d := by decide
  exact this d h

theorem readDigits_step (acc d : Nat) (rest : GoString) (h : d < 10) :
    readDigits acc ((0x30 + d) :: rest) = readDigits (acc * 10 + d) rest := by
  have hd : isDigit (0x30 + d) = true := by simp [isDigit]; omega
  simp only [readDigits, hd, if_true]
  congr 2
  omega

theorem toDigitsCore_spec : ∀ (fuel n : Nat) (ds : List Char), n < fuel →
    ∃ pre : GoString,
      (Nat.toDigitsCore 10 fuel n ds).map Char.toNat = pre ++ ds.map Char.toNat ∧
      (∀ acc tail, readDigits acc (pre ++ tail) = readDigits (acc * 10 ^ pre.length + n) tail) ∧
      (∃ h t, pre = h :: t ∧ isDigit h = true ∧ (0 < n → h ≠ 0x30)) := by
  intro fuel
  induction fuel with
  | zero => intro n ds h; omega
  | succ k ih =>
    intro n ds hn
    have hmod : n % 10 < 10 := Nat.mod_lt _ (by decide)
    by_cases h0 : n / 10 = 0
    · refine ⟨[0x30 + n % 10], ?_, ?_, ?_⟩
      · simp [Nat.toDigitsCore, h0, digitChar_toNat _ hmod]
      · intro acc tail
        have hn10 : n % 10 = n := by omega
        simp only [List.singleton_append, List.length_singleton, pow_one]
        rw [readDigits_step _ _ _ hmod, hn10]
      · refine ⟨0x30 + n % 10, [], rfl, by simp [isDigit]; omega, ?_⟩
        intro hpos
        omega
    · obtain ⟨pre, hpre, hread, h, t, hht, hdig, hne⟩ :=
        ih (n / 10) (Nat.digitChar (n % 10) :: ds) (by omega)
      refine ⟨pre ++ [0x30 + n % 10], ?_, ?_, ?_⟩
      · simp only [Nat.toDigitsCore, h0, if_false, hpre, List.map_cons,
          digitChar_toNat _ hmod, List.append_assoc, List.singleton_append]
      · intro acc tail
        rw [List.append_assoc, List.singleton_append, hread, readDigits_step _ _ _ hmod]
        congr 1
        simp only [List.length_append, List.length_singleton, pow_succ]
        have := Nat.div_add_mod n 10
        nlinarith [this]
      · refine ⟨h, t ++ [0x30 + n % 10], by simp [hht], hdig, ?_⟩
        intro _
        exact hne (by omega)

theorem readNat_digits (n : Nat) (rest : GoString) (hrest : startsWithDigit rest = false) :
    readNat ((Nat.toDigits 10 n).map Char.toNat ++ rest) = some (n, rest) := by
  obtain ⟨pre, hpre, hread, h, t, hht, hdig, hne⟩ := toDigitsCore_spec (n + 1) n [] (by omega)
  have hD : (Nat.toDigits 10 n).map Char.toNat = h :: t := by
    rw [← hht]; simpa [Nat.toDigits] using hpre
  have hstop : ∀ acc, readDigits acc rest = (acc, rest) := by
    intro acc
    cases rest with
    | nil => rfl
    | cons d r =>
      simp only [startsWithDigit] at hrest
      simp [readDigits, hrest]
  have hall := hread 0 rest
  rw [hstop, hht] at hall
  simp only [zero_mul, zero_add] at hall
  have hlead : ¬ (h = 0x30 ∧ startsWithDigit (t ++ rest) = true) := by
    rintro ⟨h30, hstart⟩
    by_cases hn : 0 < n
    · exact hne hn h30
    · have hn0 : n = 0 := by omega
      subst hn0
      have h0 : (Nat.toDigits 10 0).map Char.toNat = [0x30] := by decide
      rw [h0] at hD
      injection hD with _ ht
      subst ht
      simp [hrest] at hstart
  rw [hD]
  simp only [List.cons_append, readNat, hdig, not_true_eq_false, if_false, hlead]
  rw [← List.cons_append, hall]

theorem readInt_formatInt (n : Int) (rest : GoString) (hrest : startsWithDigit rest = false) :
    readInt (formatInt n ++ rest) = some (n, rest) := by
  unfold formatInt
  by_cases hneg : n < 0
  · simp only [hneg, if_true, List.cons_append, readInt]
    rw [readNat_digits _ _ hrest]
    simp only [Option.map_some', Option.some.injEq, Prod.mk.injEq, and_true]
    omega
  · simp only [hneg, if_false]
    obtain ⟨pre, hpre, _, h, t, hht, hdig, _⟩ :=
      toDigitsCore_spec (n.natAbs + 1) n.natAbs [] (by omega)
    have hD : (Nat.toDigits 10 n.natAbs).map Char.toNat = h :: t := by
      rw [← hht]; simpa [Nat.toDigits] using hpre
    have hh : h ≠ 0x2D := by
      intro h2
      rw [h2] at hdig
      simp [isDigit] at hdig
    have hread := readNat_digits n.natAbs rest hrest
    rw [hD] at hread ⊢
    simp only [List.cons_append, readInt, hh, if_false] at hread ⊢
    rw [hread]
    simp only [Option.map_some', Option.some.injEq, Prod.mk.injEq, and_true]
    omega

/-! ## Decoding of UTF-8 -/

theorem DecodeRuneInString_eq_core (s : GoString) :
    DecodeRuneInString s
      = decodeCore s.length (s.getD 0 0) (s.getD 1 0) (s.getD 2 0) (s.getD 3 0) := rfl

theorem first_cases (b : Nat) :
    (b < 0x80 ∧ first b = 0xF0) ∨ (0x80 ≤ b ∧ first b = 0xF1) ∨
      (0x80 ≤ b ∧ first b < 0xF0 ∧ 2 ≤ first b &&& 7 ∧ first b &&& 7 ≤ 4) := by
  unfold first
  by_cases h1 : b < 0x80
  · left; exact ⟨h1, by rw [if_pos h1]⟩
  rw [if_neg h1]
  have hb : 0x80 ≤ b := by omega
  by_cases h2 : b < 0xC2
  · rw [if_pos h2]; right; left; exact ⟨hb, rfl⟩
  rw [if_neg h2]
  by_cases h3 : b < 0xE0
  · rw [if_pos h3]; right; right; exact ⟨hb, by decide, by decide, by decide⟩
  rw [if_neg h3]
  by_cases h4 : b = 0xE0
  · rw [if_pos h4]; right; right; exact ⟨hb, by decide, by decide, by decide⟩
  rw [if_neg h4]
  by_cases h5 : b < 0xED
  · rw [if_pos h5]; right; right; exact ⟨hb, by decide, by decide, by decide⟩
  rw [if_neg h5]
  by_cases h6 : b = 0xED
  · rw [if_pos h6]; right; right; exact ⟨hb, by decide, by decide, by decide⟩
  rw [if_neg h6]
  by_cases h7 : b < 0xF0
  · rw [if_pos h7]; right; right; exact ⟨hb, by decide, by decide, by decide⟩
  rw [if_neg h7]
  by_cases h8 : b = 0xF0
  · rw [if_pos h8]; right; right; exact ⟨hb, by decide, by decide, by decide⟩
  rw [if_neg h8]
  by_cases h9 : b < 0xF4
  · rw [if_pos h9]; right; right; exact ⟨hb, by decide, by decide, by decide⟩
  rw [if_neg h9]
  by_cases h10 : b = 0xF4
  · rw [if_pos h10]; right; right; exact ⟨hb, by decide, by decide, by decide⟩
  rw [if_neg h10]
  right; left; exact ⟨hb, rfl⟩

theorem decodeCore_valid (n s0 s1 s2 s3 c size : Nat)
    (h : decodeCore n s0 s1 s2 s3 = (c, size)) (hvalid : ¬ (c = RuneError ∧ size = 1))
    (hn : 1 ≤ n) (h0 : 0x80 ≤ s0) :
    2 ≤ size ∧ size ≤ 4 ∧ size ≤ n ∧ size = first s0 &&& 7 ∧ first s0 < 0xF0 ∧
      ∀ n' t1 t2 t3, size ≤ n' → (1 < size → t1 = s1) → (2 < size → t2 = s2) →
        (3 < size → t3 = s3) → decodeCore n' s0 t1 t2 t3 = (c, size) := by
  have hbad : ∀ k, (RuneError, k) = (c, size) → k = 1 → False := by
    intro k hk h1
    injection hk with hc hs
    exact hvalid ⟨hc.symm, by omega⟩
  have hn1 : ¬ n < 1 := by omega
  unfold decodeCore at h
  rw [if_neg hn1] at h
  simp only at h
  rcases first_cases s0 with ⟨hlt, _⟩ | ⟨_, hxx⟩ | ⟨_, hx, hsz2, hsz4⟩
  · omega
  · exfalso
    rw [hxx] at h
    simp only [ge_iff_le, Nat.reduceLeDiff, if_true] at h
    exact hbad 1 h rfl
  · have hx' : ¬ first s0 ≥ 0xF0 := by omega
    rw [if_neg hx'] at h
    by_cases hs : n < first s0 &&& 7
    · rw [if_pos hs] at h; exact (hbad 1 h rfl).elim
    rw [if_neg hs] at h
    by_cases h1 : s1 < (acceptRanges (first s0 >>> 4)).1 ∨ (acceptRanges (first s0 >>> 4)).2 < s1
    · rw [if_pos h1] at h; exact (hbad 1 h rfl).elim
    rw [if_neg h1] at h
    by_cases hz2 : first s0 &&& 7 ≤ 2
    · rw [if_pos hz2] at h
      injection h with hc hsize
      subst hsize
      refine ⟨by omega, by omega, by omega, by omega, hx, ?_⟩
      intro n' t1 t2 t3 hn' e1 _ _
      have e1' := e1 (by omega)
      subst e1'
      unfold decodeCore
      rw [if_neg (by omega : ¬ n' < 1)]
      simp only
      rw [if_neg hx', if_neg (by omega : ¬ n' < first s0 &&& 7), if_neg h1, if_pos hz2, hc]
    rw [if_neg hz2] at h
    by_cases h2 : s2 < 0x80 ∨ 0xBF < s2
    · rw [if_pos h2] at h; exact (hbad 1 h rfl).elim
    rw [if_neg h2] at h
    by_cases hz3 : first s0 &&& 7 ≤ 3
    · rw [if_pos hz3] at h
      injection h with hc hsize
      subst hsize
      refine ⟨by omega, by omega, by omega, by omega, hx, ?_⟩
      intro n' t1 t2 t3 hn' e1 e2 _
      have e1' := e1 (by omega)
      have e2' := e2 (by omega)
      subst e1' e2'
      unfold decodeCore
      rw [if_neg (by omega : ¬ n' < 1)]
      simp only
      rw [if_neg hx', if_neg (by omega : ¬ n' < first s0 &&& 7), if_neg h1, if_neg hz2,
        if_neg h2, if_pos hz3, hc]
    rw [if_neg hz3] at h
    by_cases h3 : s3 < 0x80 ∨ 0xBF < s3
    · rw [if_pos h3] at h; exact (hbad 1 h rfl).elim
    rw [if_neg h3] at h
    injection h with hc hsize
    subst hsize
    refine ⟨by omega, by omega, by omega, by omega, hx, ?_⟩
    intro n' t1 t2 t3 hn' e1 e2 e3
    have e1' := e1 (by omega)
    have e2' := e2 (by omega)
    have e3' := e3 (by omega)
    subst e1' e2' e3'
    unfold decodeCore
    rw [if_neg (by omega : ¬ n' < 1)]
    simp only
    rw [if_neg hx', if_neg (by omega : ¬ n' < first s0 &&& 7), if_neg h1, if_neg hz2,
      if_neg h2, if_neg hz3, if_neg h3, hc]

theorem getD_take_of_lt (l : GoString) (n i : Nat) (h : i < n) :
    (l.take n).getD i 0 = l.getD i 0 := by
  simp [List.getD_eq_getElem?_getD, List.getElem?_take, h]

theorem getD_initial (l Y : GoString) (size i : Nat) (hi : i < size) (hs : size ≤ l.length)
    (h4 : size ≤ 4) : ((l.take size ++ Y).take 4).getD i 0 = l.getD i 0 := by
  rw [getD_take_of_lt _ _ _ (by omega)]
  have hlen : i < (l.take size).length := by simp; omega
  simp [List.getD_eq_getElem?_getD, List.getElem?_append_left hlen, List.getElem?_take, hi]

theorem take_min_four (l : GoString) : l.take (min l.length 4) = l.take 4 := by
  by_cases h : l.length ≤ 4
  · rw [Nat.min_eq_left h, List.take_length, List.take_of_length_le h]
  · rw [Nat.min_eq_right (by omega)]

theorem decode_take_valid (b : Nat) (rest : GoString) (c size : Nat) (hb : 0x80 ≤ b)
    (h : DecodeRuneInString ((b :: rest).take 4) = (c, size))
    (hvalid : ¬ (c = RuneError ∧ size = 1)) :
    2 ≤ size ∧ size ≤ 4 ∧ size ≤ (b :: rest).length ∧
      ∀ Y, DecodeRuneInString (((b :: rest).take size ++ Y).take 4) = (c, size) := by
  rw [DecodeRuneInString_eq_core] at h
  have h00 : ((b :: rest).take 4).getD 0 0 = b := by simp
  rw [h00] at h
  have hlen : 1 ≤ ((b :: rest).take 4).length := by simp
  obtain ⟨h2, h4, hn, _, _, htrans⟩ := decodeCore_valid _ _ _ _ _ _ _ h hvalid hlen hb
  have hsl : size ≤ (b :: rest).length := by
    have : ((b :: rest).take 4).length ≤ (b :: rest).length := by simp
    omega
  refine ⟨h2, h4, hsl, ?_⟩
  intro Y
  rw [DecodeRuneInString_eq_core]
  have e0 : (((b :: rest).take size ++ Y).take 4).getD 0 0 = b := by
    rw [getD_initial _ _ _ _ (by omega) hsl h4]; rfl
  rw [e0]
  apply htrans
  · simp only [List.length_take, List.length_append]
    omega
  · intro h1
    rw [getD_initial _ _ _ _ h1 hsl h4, getD_take_of_lt _ _ _ (by omega)]
  · intro h1
    rw [getD_initial _ _ _ _ h1 hsl h4, getD_take_of_lt _ _ _ (by omega)]
  · intro h1
    rw [getD_initial _ _ _ _ h1 hsl h4, getD_take_of_lt _ _ _ (by omega)]

theorem readHex4_escape : ∀ b, b < 128 →
    readHex4 [0x30, 0x30, hexDigit (b >>> 4), hexDigit (b &&& 0xF)] = some b := by
  decide

theorem and_63 (x : Nat) : x &&& 0x3F = x % 64 := Nat.and_pow_two_sub_one_eq_mod x 6

theorem and_15 (x : Nat) : x &&& 0x0F = x % 16 := Nat.and_pow_two_sub_one_eq_mod x 4

theorem and_31 (x : Nat) : x &&& 0x1F = x % 32 := Nat.and_pow_two_sub_one_eq_mod x 5

theorem and_7 (x : Nat) : x &&& 0x07 = x % 8 := Nat.and_pow_two_sub_one_eq_mod x 3

theorem or_shift_6 (a c : Nat) (hc : c < 64) : (a <<< 6) ||| c = a * 64 + c := by
  rw [Nat.shiftLeft_eq, Nat.mul_comm a]
  exact (Nat.mul_add_lt_is_or (show c < 2 ^ 6 from hc) a).symm

theorem or_shift_12 (a c : Nat) (hc : c < 4096) : (a <<< 12) ||| c = a * 4096 + c := by
  rw [Nat.shiftLeft_eq, Nat.mul_comm a]
  exact (Nat.mul_add_lt_is_or (show c < 2 ^ 12 from hc) a).symm

theorem or_shift_18 (a c : Nat) (hc : c < 262144) : (a <<< 18) ||| c = a * 262144 + c := by
  rw [Nat.shiftLeft_eq, Nat.mul_comm a]
  exact (Nat.mul_add_lt_is_or (show c < 2 ^ 18 from hc) a).symm

theorem rune_two (s0 s1 : Nat) :
    ((s0 &&& 0x1F) <<< 6) ||| (s1 &&& 0x3F) = s0 % 32 * 64 + s1 % 64 := by
  rw [and_31, and_63, or_shift_6 _ _ (Nat.mod_lt _ (by decide))]

theorem rune_three (s0 s1 s2 : Nat) :
    ((s0 &&& 0x0F) <<< 12) ||| ((s1 &&& 0x3F) <<< 6) ||| (s2 &&& 0x3F)
      = s0 % 16 * 4096 + s1 % 64 * 64 + s2 % 64 := by
  rw [and_15, and_63, and_63, Nat.lor_assoc, or_shift_6 _ _ (Nat.mod_lt _ (by decide)),
    or_shift_12 _ _ (by omega)]
  omega

theorem rune_four (s0 s1 s2 s3 : Nat) :
    ((s0 &&& 0x07) <<< 18) ||| ((s1 &&& 0x3F) <<< 12) ||| ((s2 &&& 0x3F) <<< 6) ||| (s3 &&& 0x3F)
      = s0 % 8 * 262144 + s1 % 64 * 4096 + s2 % 64 * 64 + s3 % 64 := by
  rw [and_7, and_63, and_63, and_63, Nat.lor_assoc, Nat.lor_assoc,
    or_shift_6 _ _ (Nat.mod_lt _ (by decide)), or_shift_12 _ _ (by omega),
    or_shift_18 _ _ (by omega)]
  omega

theorem first_table (b : Nat) (hx : first b < 0xF0) :
    0x80 ≤ (acceptRanges (first b >>> 4)).1 ∧ (acceptRanges (first b >>> 4)).2 ≤ 0xBF ∧
    (first b &&& 7 = 3 → 0xE0 ≤ b ∧ b ≤ 0xEF) ∧
    (first b &&& 7 = 4 →
      (b = 0xF0 ∧ (acceptRanges (first b >>> 4)).1 = 0x90) ∨ (0xF1 ≤ b ∧ b ≤ 0xF4)) := by
  generalize hf : first b = x at hx ⊢
  unfold first at hf
  by_cases h1 : b < 0x80
  · rw [if_pos h1] at hf; subst hf; omega
  rw [if_neg h1] at hf
  by_cases h2 : b < 0xC2
  · rw [if_pos h2] at hf; subst hf; omega
  rw [if_neg h2] at hf
  by_cases h3 : b < 0xE0
  · rw [if_pos h3] at hf; subst hf
    refine ⟨by decide, by decide, fun e3 => ?_, fun e4 => ?_⟩
    · exact absurd e3 (by decide)
    · exact absurd e4 (by decide)
  rw [if_neg h3] at hf
  by_cases h4 : b = 0xE0
  · rw [if_pos h4] at hf; subst hf
    refine ⟨by decide, by decide, fun e3 => ?_, fun e4 => ?_⟩
    · omega
    · exact absurd e4 (by decide)
  rw [if_neg h4] at hf
  by_cases h5 : b < 0xED
  · rw [if_pos h5] at hf; subst hf
    refine ⟨by decide, by decide, fun e3 => ?_, fun e4 => ?_⟩
    · omega
    · exact absurd e4 (by decide)
  rw [if_neg h5] at hf
  by_cases h6 : b = 0xED
  · rw [if_pos h6] at hf; subst hf
    refine ⟨by decide, by decide, fun e3 => ?_, fun e4 => ?_⟩
    · omega
    · exact absurd e4 (by decide)
  rw [if_neg h6] at hf
  by_cases h7 : b < 0xF0
  · rw [if_pos h7] at hf; subst hf
    refine ⟨by decide, by decide, fun e3 => ?_, fun e4 => ?_⟩
    · omega
    · exact absurd e4 (by decide)
  rw [if_neg h7] at hf
  by_cases h8 : b = 0xF0
  · rw [if_pos h8] at hf; subst hf
    refine ⟨by decide, by decide, fun e3 => ?_, fun e4 => ?_⟩
    · exact absurd e3 (by decide)
    · exact Or.inl ⟨by omega, by decide⟩
  rw [if_neg h8] at hf
  by_cases h9 : b < 0xF4
  · rw [if_pos h9] at hf; subst hf
    refine ⟨by decide, by decide, fun e3 => ?_, fun e4 => ?_⟩
    · exact absurd e3 (by decide)
    · exact Or.inr (by omega)
  rw [if_neg h9] at hf
  by_cases h10 : b = 0xF4
  · rw [if_pos h10] at hf; subst hf
    refine ⟨by decide, by decide, fun e3 => ?_, fun e4 => ?_⟩
    · exact absurd e3 (by decide)
    · exact Or.inr (by omega)
  rw [if_neg h10] at hf
  subst hf; omega

theorem decodeCore_separator (n s0 s1 s2 s3 c size : Nat)
    (h : decodeCore n s0 s1 s2 s3 = (c, size)) (hc : c = 0x2028 ∨ c = 0x2029)
    (hn : 1 ≤ n) (h0 : 0x80 ≤ s0) :
    size = 3 ∧ s0 = 0xE2 ∧ s1 = 0x80 ∧ s2 = c - 0x2028 + 0xA8 := by
  have hbad : ∀ k, (RuneError, k) = (c, size) → False := by
    intro k hk
    injection hk with hc' _
    unfold RuneError at hc'
    omega
  have hn1 : ¬ n < 1 := by omega
  unfold decodeCore at h
  rw [if_neg hn1] at h
  simp only at h
  rcases first_cases s0 with ⟨hlt, _⟩ | ⟨_, hxx⟩ | ⟨_, hx, hsz2, hsz4⟩
  · omega
  · exfalso
    rw [hxx] at h
    simp only [ge_iff_le, Nat.reduceLeDiff, if_true] at h
    exact hbad 1 h
  · have hx' : ¬ first s0 ≥ 0xF0 := by omega
    obtain ⟨hlo, hhi, ht3, ht4⟩ := first_table s0 hx
    rw [if_neg hx'] at h
    by_cases hs : n < first s0 &&& 7
    · rw [if_pos hs] at h; exact (hbad 1 h).elim
    rw [if_neg hs] at h
    by_cases h1 : s1 < (acceptRanges (first s0 >>> 4)).1 ∨ (acceptRanges (first s0 >>> 4)).2 < s1
    · rw [if_pos h1] at h; exact (hbad 1 h).elim
    rw [if_neg h1] at h
    by_cases hz2 : first s0 &&& 7 ≤ 2
    · rw [if_pos hz2, rune_two] at h
      injection h with hc' _
      omega
    rw [if_neg hz2] at h
    by_cases h2 : s2 < 0x80 ∨ 0xBF < s2
    · rw [if_pos h2] at h; exact (hbad 1 h).elim
    rw [if_neg h2] at h
    by_cases hz3 : first s0 &&& 7 ≤ 3
    · rw [if_pos hz3, rune_three] at h
      injection h with hc' hsize
      have hb := ht3 (by omega)
      omega
    rw [if_neg hz3] at h
    by_cases h3 : s3 < 0x80 ∨ 0xBF < s3
    · rw [if_pos h3] at h; exact (hbad 1 h).elim
    rw [if_neg h3, rune_four] at h
    injection h with hc' hsize
    rcases ht4 (by omega) with ⟨hb, hl⟩ | hb
    · omega
    · omega

theorem decode_separator (b : Nat) (rest : GoString) (c size : Nat) (hb : 0x80 ≤ b)
    (h : DecodeRuneInString ((b :: rest).take 4) = (c, size))
    (hc : c = 0x2028 ∨ c = 0x2029) :
    (b :: rest).take size = encodeRune c := by
  have hvalid : ¬ (c = RuneError ∧ size = 1) := by
    unfold RuneError; omega
  obtain ⟨_, _, hlen, _⟩ := decode_take_valid b rest c size hb h hvalid
  rw [DecodeRuneInString_eq_core] at h
  have h00 : ((b :: rest).take 4).getD 0 0 = b := by simp
  rw [h00] at h
  obtain ⟨hsize, hb2, h1, h2⟩ := decodeCore_separator _ _ _ _ _ _ _ h hc (by simp) hb
  subst hsize
  cases rest with
  | nil => simp at hlen
  | cons r1 rest1 =>
    cases rest1 with
    | nil => simp at hlen
    | cons r2 rest2 =>
      simp only [List.take_succ_cons, List.getD_cons_succ, List.getD_cons_zero] at h1 h2
      subst hb2 h1 h2
      have e1 : encodeRune 0x2028 = [0xE2, 0x80, 0xA8] := by decide
      have e2 : encodeRune 0x2029 = [0xE2, 0x80, 0xA9] := by decide
      rcases hc with hc | hc <;> subst hc
      · rw [e1]; rfl
      · rw [e2]; rfl

/-! ## Reading back the strings -/

theorem readStringBody_plain (k b : Nat) (X : GoString) (h1 : b ≠ 0x22) (h2 : b ≠ 0x5C)
    (h3 : 0x20 ≤ b) (h4 : b < 0x80) :
    readStringBody (k + 1) (b :: X) = (readStringBody k X).map (fun p => (b :: p.1, p.2)) := by
  simp only [readStringBody]
  rw [if_neg h1, if_neg h2, if_neg (by omega : ¬ b < 0x20),
    if_pos (by unfold RuneSelf; omega)]

theorem readStringBody_simple (k e v : Nat) (X : GoString) (he : e ≠ 0x75)
    (hv : readSimpleEscape e = some v) :
    readStringBody (k + 1) (0x5C :: e :: X)
      = (readStringBody k X).map (fun p => (v :: p.1, p.2)) := by
  simp only [readStringBody, if_true, he, if_false, hv]
  rw [if_neg (by decide)]

theorem readStringBody_unicode (k r h1 h2 h3 h4 : Nat) (X : GoString)
    (hr : readHex4 [h1, h2, h3, h4] = some r) (hs : ¬ (0xD800 ≤ r ∧ r ≤ 0xDFFF)) :
    readStringBody (k + 1) (0x5C :: 0x75 :: h1 :: h2 :: h3 :: h4 :: X)
      = (readStringBody k X).map (fun p => (encodeRune r ++ p.1, p.2)) := by
  simp only [readStringBody, if_true, List.take_succ_cons, List.take_zero, hr, if_neg hs,
    List.drop_succ_cons, List.drop_zero]
  rw [if_neg (by decide)]

theorem readStringBody_escape (k b : Nat) (X : GoString) (hb : b < 0x80) :
    readStringBody (k + 1) (escapeByte b ++ X)
      = (readStringBody k X).map (fun p => (b :: p.1, p.2)) := by
  unfold escapeByte
  by_cases h1 : b = 0x5C ∨ b = 0x22
  · rw [if_pos h1]
    rcases h1 with h | h <;> subst h <;>
      exact readStringBody_simple k _ _ X (by decide) (by decide)
  rw [if_neg h1]
  by_cases h2 : b = 0x08
  · rw [if_pos h2]; subst h2
    exact readStringBody_simple k _ _ X (by decide) (by decide)
  rw [if_neg h2]
  by_cases h3 : b = 0x0C
  · rw [if_pos h3]; subst h3
    exact readStringBody_simple k _ _ X (by decide) (by decide)
  rw [if_neg h3]
  by_cases h4 : b = 0x0A
  · rw [if_pos h4]; subst h4
    exact readStringBody_simple k _ _ X (by decide) (by decide)
  rw [if_neg h4]
  by_cases h5 : b = 0x0D
  · rw [if_pos h5]; subst h5
    exact readStringBody_simple k _ _ X (by decide) (by decide)
  rw [if_neg h5]
  by_cases h6 : b = 0x09
  · rw [if_pos h6]; subst h6
    exact readStringBody_simple k _ _ X (by decide) (by decide)
  rw [if_neg h6]
  have hr := readHex4_escape b hb
  have henc : encodeRune b = [b] := by
    unfold encodeRune; rw [if_pos (by omega)]
  have := readStringBody_unicode k b _ _ _ _ X hr (by omega)
  rw [henc] at this
  exact this

theorem readStringBody_replacement (k : Nat) (X : GoString) :
    readStringBody (k + 1) (0xEF :: 0xBF :: 0xBD :: X)
      = (readStringBody k X).map (fun p => ([0xEF, 0xBF, 0xBD] ++ p.1, p.2)) := by
  have hdec : DecodeRuneInString ((0xEF :: 0xBF :: 0xBD :: X).take 4) = (RuneError, 3) := by
    cases X <;> simp [DecodeRuneInString, first, acceptRanges, RuneError] <;>
      rw [if_neg (by decide), if_neg (by decide), if_pos (by decide)] <;> rfl
  simp only [readStringBody]
  rw [if_neg (by decide), if_neg (by decide), if_neg (by decide), if_neg (by decide)]
  simp only [hdec]
  rw [if_neg (by decide)]
  rfl

theorem readStringBody_rune (k b : Nat) (rest X : GoString) (c size : Nat) (hb : 0x80 ≤ b)
    (h : DecodeRuneInString ((b :: rest).take 4) = (c, size))
    (hvalid : ¬ (c = RuneError ∧ size = 1)) :
    readStringBody (k + 1) ((b :: rest).take size ++ X)
      = (readStringBody k X).map (fun p => ((b :: rest).take size ++ p.1, p.2)) := by
  obtain ⟨h2, h4, hlen, hdec⟩ := decode_take_valid b rest c size hb h hvalid
  obtain ⟨m, rfl⟩ : ∃ m, size = m + 1 := ⟨size - 1, by omega⟩
  have hcons : (b :: rest).take (m + 1) ++ X = b :: (rest.take m ++ X) := by simp
  have hd := hdec X
  rw [hcons] at hd ⊢
  simp only [readStringBody]
  rw [if_neg (by omega), if_neg (by omega), if_neg (by omega),
    if_neg (by unfold RuneSelf; omega)]
  simp only [hd]
  rw [if_neg hvalid]
  have hdrop : (b :: (rest.take m ++ X)).drop (m + 1) = X := by
    simp only [List.drop_succ_cons]
    rw [List.drop_left' (by simp at hlen ⊢; omega)]
  have htake : (b :: (rest.take m ++ X)).take (m + 1) = b :: rest.take m := by
    simp only [List.take_succ_cons]
    rw [List.take_left' (by simp at hlen ⊢; omega)]
  rw [hdrop, htake]
  simp

theorem escapeByte_length_pos (b : Nat) : 1 ≤ (escapeByte b).length := by
  unfold escapeByte
  split_ifs <;> simp

theorem htmlSafeSet_bounds (b : Nat) (h : htmlSafeSet b = true) :
    b ≠ 0x22 ∧ b ≠ 0x5C ∧ 0x20 ≤ b ∧ b < 0x80 := by
  simp only [htmlSafeSet, Bool.and_eq_true, decide_eq_true_eq, Bool.not_eq_true',
    Bool.or_eq_false_iff, decide_eq_false_iff_not] at h
  omega

theorem readStringBody_appendStringLoop : ∀ (fuelE : Nat) (s : GoString) (fuelR : Nat)
    (rest : GoString), s.length ≤ fuelE →
    (appendStringLoop fuelE s).length + 1 + rest.length ≤ fuelR →
    readStringBody fuelR (appendStringLoop fuelE s ++ 0x22 :: rest)
      = some (coerceLoop fuelE s, rest) := by
  intro fuelE
  induction fuelE with
  | zero =>
    intro s fuelR rest hs hR
    have hnil : s = [] := List.length_eq_zero.mp (by omega)
    subst hnil
    obtain ⟨k, rfl⟩ : ∃ k, fuelR = k + 1 := ⟨fuelR - 1, by omega⟩
    simp [appendStringLoop, coerceLoop, readStringBody]
  | succ n ih =>
    intro s fuelR rest hs hR
    obtain ⟨k, rfl⟩ : ∃ k, fuelR = k + 1 := ⟨fuelR - 1, by omega⟩
    cases s with
    | nil => simp [appendStringLoop, coerceLoop, readStringBody]
    | cons b s1 =>
      simp only [List.length_cons] at hs
      by_cases hlt : b < RuneSelf
      · by_cases hsafe : htmlSafeSet b = true
        · have hout : appendStringLoop (n + 1) (b :: s1) = b :: appendStringLoop n s1 := by
            simp only [appendStringLoop, hlt, if_true, hsafe]
          have hco : coerceLoop (n + 1) (b :: s1) = b :: coerceLoop n s1 := by
            simp only [coerceLoop, hlt, if_true]
          obtain ⟨h1, h2, h3, h4⟩ := htmlSafeSet_bounds b hsafe
          rw [hout] at hR ⊢
          simp only [List.length_cons] at hR
          rw [hco, List.cons_append, readStringBody_plain k b _ h1 h2 h3 h4,
            ih s1 k rest (by omega) (by omega)]
          rfl
        · have hout : appendStringLoop (n + 1) (b :: s1)
              = escapeByte b ++ appendStringLoop n s1 := by
            simp only [appendStringLoop, hlt, if_true, hsafe]
            rfl
          have hco : coerceLoop (n + 1) (b :: s1) = b :: coerceLoop n s1 := by
            simp only [coerceLoop, hlt, if_true]
          have hpos := escapeByte_length_pos b
          rw [hout] at hR ⊢
          simp only [List.length_append] at hR
          rw [hco, List.append_assoc, readStringBody_escape k b _ (by unfold RuneSelf at hlt; omega),
            ih s1 k rest (by omega) (by omega)]
          rfl
      · have hb : 0x80 ≤ b := by unfold RuneSelf at hlt; omega
        rcases hd : DecodeRuneInString ((b :: s1).take 4) with ⟨c, size⟩
        have hsize := DecodeRuneInString_size_pos ((b :: s1).take 4) (by simp)
        rw [hd] at hsize
        simp only at hsize
        by_cases hinv : c = RuneError ∧ size = 1
        · have hout : appendStringLoop (n + 1) (b :: s1)
              = 0xEF :: 0xBF :: 0xBD :: appendStringLoop n s1 := by
            simp only [appendStringLoop, hlt, if_false, take_min_four, hd, hinv, and_self,
              if_true]
            rfl
          have hco : coerceLoop (n + 1) (b :: s1)
              = [0xEF, 0xBF, 0xBD] ++ coerceLoop n s1 := by
            simp only [coerceLoop, hlt, if_false, take_min_four, hd, hinv, and_self, if_true]
          rw [hout] at hR ⊢
          simp only [List.length_cons] at hR
          rw [hco, List.cons_append, List.cons_append, List.cons_append,
            readStringBody_replacement, ih s1 k rest (by omega) (by omega)]
          rfl
        · have hdroplen : ((b :: s1).drop size).length ≤ n := by
            simp only [List.length_drop, List.length_cons]; omega
          by_cases hsep : c = 0x2028 ∨ c = 0x2029
          · have hout : appendStringLoop (n + 1) (b :: s1)
                = 0x5C :: 0x75 :: 0x32 :: 0x30 :: 0x32 :: hexDigit (c &&& 0xF)
                    :: appendStringLoop n ((b :: s1).drop size) := by
              simp only [appendStringLoop, hlt, if_false, take_min_four, hd, hinv, hsep, if_true]
              rfl
            have hco : coerceLoop (n + 1) (b :: s1)
                = (b :: s1).take size ++ coerceLoop n ((b :: s1).drop size) := by
              simp only [coerceLoop, hlt, if_false, take_min_four, hd, hinv]
            have hhex : readHex4 [0x32, 0x30, 0x32, hexDigit (c &&& 0xF)] = some c := by
              rcases hsep with h | h <;> subst h <;> decide
            rw [hout] at hR ⊢
            simp only [List.length_cons] at hR
            rw [hco, decode_separator b s1 c size hb hd hsep]
            simp only [List.cons_append]
            rw [readStringBody_unicode k c _ _ _ _ _ hhex (by omega),
              ih _ k rest hdroplen (by omega)]
            rfl
          · have hout : appendStringLoop (n + 1) (b :: s1)
                = (b :: s1).take size ++ appendStringLoop n ((b :: s1).drop size) := by
              simp only [appendStringLoop, hlt, if_false, take_min_four, hd, hinv, hsep]
            have hco : coerceLoop (n + 1) (b :: s1)
                = (b :: s1).take size ++ coerceLoop n ((b :: s1).drop size) := by
              simp only [coerceLoop, hlt, if_false, take_min_four, hd, hinv]
            have htl : 1 ≤ ((b :: s1).take size).length := by
              simp only [List.length_take, List.length_cons]; omega
            rw [hout] at hR ⊢
            simp only [List.length_append] at hR
            rw [hco, List.append_assoc, readStringBody_rune k b s1 _ c size hb hd hinv,
              ih _ k rest hdroplen (by omega)]
            rfl

theorem readString_appendString (s rest : GoString) :
    readString (appendString s ++ rest) = some (coerceUTF8 s, rest) := by
  unfold appendString readString coerceUTF8
  simp only [List.singleton_append, List.cons_append, List.append_assoc, if_true]
  exact readStringBody_appendStringLoop s.length s _ rest (le_refl _)
    (by simp only [List.length_append, List.length_cons]; omega)

/-! ## Reading back the payload -/

theorem expect_append (tok s : GoString) : expect tok (tok ++ s) = some s := by
  induction tok with
  | nil => cases s <;> rfl
  | cons t ts ih => simp [expect, ih]

theorem startsWithDigit_comma (X : GoString) :
    startsWithDigit (utf8 ",\"character\":" ++ X) = false := by
  have e : utf8 ",\"character\":" = 0x2C :: utf8 "\"character\":" := by decide
  rw [e]
  rfl

theorem startsWithDigit_brace (X : GoString) : startsWithDigit (utf8 "\x7d" ++ X) = false := by
  have e : utf8 "\x7d" = [0x7D] := by decide
  rw [e]
  rfl

theorem readPosition_positionText (p : VSPosition) (rest : GoString) :
    readPosition (positionText p ++ rest) = some (p, rest) := by
  unfold readPosition positionText
  simp only [List.append_assoc, expect_append, Option.some_bind,
    readInt_formatInt _ _ (startsWithDigit_comma _), readInt_formatInt _ _ (startsWithDigit_brace _)]

theorem readRange_rangeText (r : VSRange) (rest : GoString) :
    readRange (rangeText r ++ rest) = some (r, rest) := by
  unfold readRange rangeText
  simp only [List.append_assoc, expect_append, Option.some_bind, readPosition_positionText]

theorem readRecord_recordText (g : GoImport) (rest : GoString) :
    readRecord (recordText g ++ rest)
      = some ({ Name := coerceUTF8 g.Name, Range := g.Range }, rest) := by
  unfold readRecord recordText
  simp only [List.append_assoc, expect_append, Option.some_bind, readString_appendString,
    readRange_rangeText]

theorem readMoreRecords_text : ∀ (records : List GoImport) (fuel : Nat) (rest : GoString),
    records.length + 1 ≤ fuel →
    readMoreRecords fuel
        ((records.map (fun g => 0x2C :: recordText g)).flatten ++ 0x5D :: rest)
      = some (records.map (fun g => { Name := coerceUTF8 g.Name, Range := g.Range }), rest) := by
  intro records
  induction records with
  | nil =>
    intro fuel rest hf
    obtain ⟨k, rfl⟩ : ∃ k, fuel = k + 1 := ⟨fuel - 1, by omega⟩
    simp [readMoreRecords]
  | cons g gs ih =>
    intro fuel rest hf
    obtain ⟨k, rfl⟩ : ∃ k, fuel = k + 1 := ⟨fuel - 1, by omega⟩
    simp only [List.length_cons] at hf
    have hlist : ((g :: gs).map (fun g => 0x2C :: recordText g)).flatten ++ 0x5D :: rest
        = 0x2C :: (recordText g
            ++ ((gs.map (fun g => 0x2C :: recordText g)).flatten ++ 0x5D :: rest)) := by
      simp
    rw [hlist]
    simp only [readMoreRecords, if_true, if_false, readRecord_recordText, Option.some_bind,
      ih k rest (by omega), Option.map_some', List.map_cons]
    rw [if_neg (by decide)]

theorem flatten_length_ge (records : List GoImport) :
    records.length ≤ ((records.map (fun g => 0x2C :: recordText g)).flatten).length := by
  induction records with
  | nil => simp
  | cons g gs ih =>
    simp only [List.map_cons, List.flatten_cons, List.length_append, List.length_cons]
    omega

theorem payloadText_cons (g : GoImport) (gs : List GoImport) :
    payloadText (g :: gs)
      = 0x5B :: (recordText g
          ++ ((gs.map (fun g => 0x2C :: recordText g)).flatten ++ [0x5D])) := by
  have e1 : utf8 "[" = [0x5B] := by decide
  have e2 : utf8 "]" = [0x5D] := by decide
  have e3 : utf8 "," = [0x2C] := by decide
  unfold payloadText
  rw [e1, e2, e3, List.map_cons, intercalate_comma, List.map_map]
  simp [Function.comp_def]

theorem readPayload_payloadText (records : List GoImport) :
    readPayload (payloadText records)
      = some (records.map (fun g => { Name := coerceUTF8 g.Name, Range := g.Range })) := by
  cases records with
  | nil =>
    have e : payloadText [] = [0x5B, 0x5D] := by decide
    rw [e]
    rfl
  | cons g gs =>
    have e4 : utf8 "\x7b\"name\":" = 0x7B :: utf8 "\"name\":" := by decide
    have hstart : ∃ t, recordText g = 0x7B :: t := by
      unfold recordText
      rw [e4]
      exact ⟨_, rfl⟩
    obtain ⟨t, ht⟩ := hstart
    have hread := readRecord_recordText g
      ((gs.map (fun y => 0x2C :: recordText y)).flatten ++ [0x5D])
    have hmore := readMoreRecords_text gs
      ((gs.map (fun y => 0x2C :: recordText y)).flatten ++ [0x5D]).length []
      (by have := flatten_length_ge gs; simp only [List.length_append, List.length_singleton]; omega)
    rw [payloadText_cons]
    rw [ht] at hread ⊢
    rw [List.cons_append] at hread ⊢
    simp only [readPayload, hread, Option.some_bind, hmore, if_true, if_false, List.map_cons]
    rw [if_neg (by decide), if_neg (by decide)]

theorem coerceLoop_ascii : ∀ (s : GoString) (fuel : Nat), s.length ≤ fuel →
    (∀ b ∈ s, b < 0x80) → coerceLoop fuel s = s := by
  intro s
  induction s with
  | nil => intro fuel _ _; cases fuel <;> simp [coerceLoop]
  | cons b rest ih =>
    intro fuel hfuel hall
    obtain ⟨k, rfl⟩ : ∃ k, fuel = k + 1 := ⟨fuel - 1, by simp at hfuel; omega⟩
    have hb : b < RuneSelf := hall b (List.mem_cons_self _ _)
    simp only [coerceLoop, hb, if_true]
    rw [ih k (by simp at hfuel; omega) (fun x hx => hall x (List.mem_cons_of_mem _ hx))]

theorem coerceUTF8_ascii (s : GoString) (h : ∀ b ∈ s, b < 0x80) : coerceUTF8 s = s :=
  coerceLoop_ascii s s.length (le_refl _) h

theorem decodeCore_accept (n s0 s1 s2 s3 : Nat) (hx : first s0 < 0xF0)
    (hn : first s0 &&& 7 ≤ n)
    (h1 : ¬ (s1 < (acceptRanges (first s0 >>> 4)).1 ∨ (acceptRanges (first s0 >>> 4)).2 < s1))
    (h2 : 2 < first s0 &&& 7 → ¬ (s2 < 0x80 ∨ 0xBF < s2))
    (h3 : 3 < first s0 &&& 7 → ¬ (s3 < 0x80 ∨ 0xBF < s3)) :
    (decodeCore n s0 s1 s2 s3).2 = first s0 &&& 7 := by
  rcases first_cases s0 with ⟨_, hf⟩ | ⟨_, hf⟩ | ⟨_, _, hsz2, hsz4⟩
  · omega
  · omega
  · unfold decodeCore
    rw [if_neg (by omega : ¬ n < 1)]
    simp only
    rw [if_neg (by omega : ¬ first s0 ≥ 0xF0), if_neg (by omega : ¬ n < first s0 &&& 7),
      if_neg h1]
    by_cases hz2 : first s0 &&& 7 ≤ 2
    · rw [if_pos hz2]; simp only; omega
    rw [if_neg hz2, if_neg (h2 (by omega))]
    by_cases hz3 : first s0 &&& 7 ≤ 3
    · rw [if_pos hz3]; simp only; omega
    rw [if_neg hz3, if_neg (h3 (by omega))]
    simp only; omega

theorem coerceLoop_valid : ∀ (fuel : Nat) (s : GoString), s.length ≤ fuel →
    validStringLoop fuel s = true → coerceLoop fuel s = s := by
  intro fuel
  induction fuel with
  | zero =>
    intro s hs _
    have hnil : s = [] := List.length_eq_zero.mp (by omega)
    subst hnil
    rfl
  | succ n ih =>
    intro s hs hv
    cases s with
    | nil => rfl
    | cons b rest =>
      simp only [List.length_cons] at hs
      by_cases hlt : b < RuneSelf
      · simp only [validStringLoop, hlt, if_true] at hv
        simp only [coerceLoop, hlt, if_true]
        rw [ih rest (by omega) hv]
      · simp only [validStringLoop, hlt, if_false] at hv
        by_cases hxx : first b = 0xF1
        · rw [if_pos hxx] at hv; cases hv
        rw [if_neg hxx] at hv
        by_cases hlen : first b &&& 7 > (b :: rest).length
        · rw [if_pos hlen] at hv; cases hv
        rw [if_neg hlen] at hv
        by_cases h1 : rest.getD 0 0 < (acceptRanges (first b >>> 4)).1
            ∨ (acceptRanges (first b >>> 4)).2 < rest.getD 0 0
        · rw [if_pos h1] at hv; cases hv
        rw [if_neg h1] at hv
        have hb : 0x80 ≤ b := by unfold RuneSelf at hlt; omega
        rcases first_cases b with ⟨hc, _⟩ | ⟨_, hf⟩ | ⟨_, hx, hsz2, hsz4⟩
        · omega
        · exact absurd hf hxx
        · simp only [List.length_cons] at hlen
          have hvalid : validStringLoop n ((b :: rest).drop (first b &&& 7)) = true ∧
              (2 < first b &&& 7 → ¬ (rest.getD 1 0 < 0x80 ∨ 0xBF < rest.getD 1 0)) ∧
              (3 < first b &&& 7 → ¬ (rest.getD 2 0 < 0x80 ∨ 0xBF < rest.getD 2 0)) := by
            by_cases e2 : first b &&& 7 = 2
            · rw [if_pos e2] at hv
              rw [e2]
              exact ⟨hv, fun h => by omega, fun h => by omega⟩
            rw [if_neg e2] at hv
            by_cases h2 : rest.getD 1 0 < 0x80 ∨ 0xBF < rest.getD 1 0
            · rw [if_pos h2] at hv; cases hv
            rw [if_neg h2] at hv
            by_cases e3 : first b &&& 7 = 3
            · rw [if_pos e3] at hv
              rw [e3]
              exact ⟨hv, fun _ => h2, fun h => by omega⟩
            rw [if_neg e3] at hv
            by_cases h3 : rest.getD 2 0 < 0x80 ∨ 0xBF < rest.getD 2 0
            · rw [if_pos h3] at hv; cases hv
            rw [if_neg h3] at hv
            have e4 : first b &&& 7 = 4 := by omega
            rw [e4]
            exact ⟨hv, fun _ => h2, fun _ => h3⟩
          obtain ⟨hrec, h2, h3⟩ := hvalid
          have hsize : (DecodeRuneInString ((b :: rest).take 4)).2 = first b &&& 7 := by
            rw [DecodeRuneInString_eq_core]
            have e0 : ((b :: rest).take 4).getD 0 0 = b := by simp
            have e1 : ((b :: rest).take 4).getD 1 0 = rest.getD 0 0 := by
              rw [getD_take_of_lt _ _ _ (by omega)]; rfl
            have e2 : ((b :: rest).take 4).getD 2 0 = rest.getD 1 0 := by
              rw [getD_take_of_lt _ _ _ (by omega)]; rfl
            have e3 : ((b :: rest).take 4).getD 3 0 = rest.getD 2 0 := by
              rw [getD_take_of_lt _ _ _ (by omega)]; rfl
            rw [e0, e1, e2, e3]
            exact decodeCore_accept _ _ _ _ _ hx
              (by simp only [List.length_take, List.length_cons]; omega) h1 h2 h3
          rcases hd : DecodeRuneInString ((b :: rest).take 4) with ⟨c, size⟩
          rw [hd] at hsize
          simp only at hsize
          subst hsize
          have hinv : ¬ (c = RuneError ∧ first b &&& 7 = 1) := by omega
          simp only [coerceLoop, hlt, if_false, take_min_four, hd, hinv]
          rw [ih _ (by simp only [List.length_drop, List.length_cons]; omega) hrec,
            List.take_append_drop]

theorem coerceUTF8_valid (s : GoString) (h : ValidString s = true) : coerceUTF8 s = s :=
  coerceLoop_valid s.length s (le_refl _) h

/-! ## The position translator -/

/-- C2: `toVSPos` is a total function without error outcome, and for every
native position whose line and column are at least 1 (and are Go ints of `w`
bits) it returns line - 1 and column - 1, both at least 0, without
wrap-around. -/
theorem toVSPos_zero_based (w : Nat) (p : Position) (hw : 0 < w)
    (hLine : 1 ≤ p.Line) (hLineInt : p.Line < 2 ^ (w - 1))
    (hColumn : 1 ≤ p.Column) (hColumnInt : p.Column < 2 ^ (w - 1)) :
    toVSPos w p = { Line := p.Line - 1, Character := p.Column - 1 } ∧
      0 ≤ (toVSPos w p).Line ∧ 0 ≤ (toVSPos w p).Character := by
  have hpos : (0 : Int) < 2 ^ (w - 1) := by positivity
  have h1 : wrapInt w (p.Line - 1) = p.Line - 1 :=
    wrapInt_of_range w _ hw (by omega) (by omega)
  have h2 : wrapInt w (p.Column - 1) = p.Column - 1 :=
    wrapInt_of_range w _ hw (by omega) (by omega)
  simp only [toVSPos, h1, h2, true_and]
  constructor <;> omega

theorem toVSPos_zero_based_witness :
    toVSPos 64 { Filename := utf8 "src.go", Offset := 18, Line := 3, Column := 8 }
        = { Line := 2, Character := 7 } ∧
      toVSPos 32 { Filename := utf8 "src.go", Offset := 18, Line := 2147483647, Column := 1 }
        = { Line := 2147483646, Character := 0 } :=
  ⟨(toVSPos_zero_based 64 { Filename := utf8 "src.go", Offset := 18, Line := 3, Column := 8 }
      (by decide) (by decide) (by decide) (by decide) (by decide)).1,
   (toVSPos_zero_based 32
      { Filename := utf8 "src.go", Offset := 18, Line := 2147483647, Column := 1 }
      (by decide) (by decide) (by decide) (by decide) (by decide)).1⟩

/-! ## Order and number of the records -/

/-- C3: when parsing succeeds and every path literal unquotes, the loop ends
with exactly one record per declaration of `file.Imports`, in the same order:
the result has the length of `file.Imports`, its i-th record is the one built
from the i-th declaration, and this sequence is what `main` hands to the
encoder and prints. -/
theorem main_one_record_per_import (env : Env) (stdin : GoString)
    (hparse : (env.ParseFile stdin).err = none)
    (hunq : ∀ imp ∈ (env.ParseFile stdin).file.Imports,
      (env.Unquote imp.Path.Value).2 = none) :
    ∃ records : List GoImport,
      importLoop env (env.ParseFile stdin).Position (env.ParseFile stdin).file.Imports
        GoSlice.make0 = .ok (some records) ∧
      records.length = (env.ParseFile stdin).file.Imports.length ∧
      (∀ (i : Nat) (imp : ImportSpec), (env.ParseFile stdin).file.Imports[i]? = some imp →
        records[i]? = some
          { Name := (env.Unquote imp.Path.Value).1,
            Range :=
              { Start := toVSPos env.intBits ((env.ParseFile stdin).Position imp.Pos),
                End := toVSPos env.intBits
                  ((env.ParseFile stdin).Position (imp.End env.intBits)) } }) ∧
      ((env.Marshal (some records)).2 = none →
        main env stdin
          = { stdout := (env.Marshal (some records)).1, stderr := [], term := .returned }) := by
  have hloop := importLoop_ok env (env.ParseFile stdin).Position
    (env.ParseFile stdin).file.Imports [] hunq
  rw [List.nil_append] at hloop
  refine ⟨_, hloop, by simp, ?_, ?_⟩
  · intro i imp hi
    simp [List.getElem?_map, hi, recordOf]
  · intro henc
    exact main_of_encoded env stdin _ hparse hloop henc

theorem main_one_record_per_import_witness :
    ∃ records : List GoImport,
      importLoop (stdEnv 64 (fun _ => groupParsed)) groupParsed.Position
        groupParsed.file.Imports GoSlice.make0 = .ok (some records) ∧
      records.length = 3 ∧
      records.map (fun r => r.Name) = [utf8 "a", utf8 "b", utf8 "c"] := by
  obtain ⟨records, hloop, hlen, _, _⟩ :=
    main_one_record_per_import (stdEnv 64 (fun _ => groupParsed)) groupSource (by decide)
      (by decide)
  refine ⟨records, hloop, hlen, ?_⟩
  have hdec : importLoop (stdEnv 64 (fun _ => groupParsed)) groupParsed.Position
      groupParsed.file.Imports GoSlice.make0
      = .ok (some [ { Name := utf8 "a", Range := ⟨⟨2, 1⟩, ⟨2, 4⟩⟩ },
                    { Name := utf8 "b", Range := ⟨⟨3, 1⟩, ⟨3, 4⟩⟩ },
                    { Name := utf8 "c", Range := ⟨⟨4, 1⟩, ⟨4, 4⟩⟩ } ]) := by decide
  have hrecords : (Except.ok (some records) : Except Outcome (GoSlice GoImport)) = _ :=
    hloop.symm.trans hdec
  injection hrecords with hrecords
  injection hrecords with hrecords
  subst hrecords
  decide

/-! ## The records -/

/-- C1 (as stated, refuted): two runs.  For the aliased declaration of
`aliasSource` the path literal starts at native line 2, column 10 (editor
position (1, 9)), but the range of the record starts at editor position (1, 7),
the translation of the alias at column 8; so "every record's range starts at
the start of the path literal" does not hold.  For `parenSource` the closing
parenthesis directly follows the literal, and the end of the range, editor
position (1, 13), is the position of that parenthesis; so "the end is never the
position of a grouping parenthesis" does not hold as an inequality of
positions. -/
theorem aliased_range_counterexample :
    (aliasParsed.Position aliasSpec.Path.Pos).Line = 2 ∧
    (aliasParsed.Position aliasSpec.Path.Pos).Column = 10 ∧
    toVSPos 64 (aliasParsed.Position aliasSpec.Path.Pos) = { Line := 1, Character := 9 } ∧
    importLoop (stdEnv 64 (fun _ => aliasParsed)) aliasParsed.Position aliasParsed.file.Imports
        GoSlice.make0
      = .ok (some [{ Name := utf8 "fmt",
                     Range := { Start := { Line := 1, Character := 7 },
                                End := { Line := 1, Character := 14 } } }]) ∧
    ¬ (∀ (env : Env) (stdin : GoString) (records : List GoImport) (i : Nat)
        (imp : ImportSpec) (r : GoImport),
        (env.ParseFile stdin).err = none →
        importLoop env (env.ParseFile stdin).Position (env.ParseFile stdin).file.Imports
          GoSlice.make0 = .ok (some records) →
        (env.ParseFile stdin).file.Imports[i]? = some imp →
        records[i]? = some r →
        r.Range.Start = toVSPos env.intBits ((env.ParseFile stdin).Position imp.Path.Pos) ∧
        r.Range.End = toVSPos env.intBits
          ((env.ParseFile stdin).Position (imp.Path.End env.intBits))) ∧
    importLoop (stdEnv 64 (fun _ => parenParsed)) parenParsed.Position parenParsed.file.Imports
        GoSlice.make0
      = .ok (some [{ Name := utf8 "fmt",
                     Range := { Start := { Line := 1, Character := 8 },
                                End := { Line := 1, Character := 13 } } }]) ∧
    toVSPos 64 (parenParsed.Position parenDecl.Rparen) = { Line := 1, Character := 13 } := by
  refine ⟨by decide, by decide, by decide, by decide, ?_, by decide, by decide⟩
  intro h
  have h1 := (h (stdEnv 64 (fun _ => aliasParsed)) aliasSource [aliasRecord] 0 aliasSpec
    aliasRecord (by decide) (by decide) (by decide) rfl).1
  revert h1
  decide

/-- C1 (amended): for every declaration of a run whose loop completes, the
range of its record starts at the translation of `imp.Pos()`, which is the
position of the local name (alias, dot or blank) when the declaration has one
and the start of the path literal otherwise, and ends at the translation of
`imp.End()`, which is `EndPos` when a tool has set it (the parser does not) and
otherwise the end of the path literal: the position the parser recorded right
after the literal (`ValueEnd`), or `ValuePos + len(Value)` where none is
recorded.  The positions of the keyword and of the grouping parentheses are
not read: whatever the declarations `Decls` of the file hold, the loop yields
the same records and `main` ends in the same outcome. -/
theorem import_range_spans_declaration (env : Env) (stdin : GoString)
    (records : List GoImport) (i : Nat) (imp : ImportSpec)
    (hloop : importLoop env (env.ParseFile stdin).Position (env.ParseFile stdin).file.Imports
      GoSlice.make0 = .ok (some records))
    (himp : (env.ParseFile stdin).file.Imports[i]? = some imp) :
    ∃ r, records[i]? = some r ∧
      r.Range.Start = toVSPos env.intBits ((env.ParseFile stdin).Position
        (match imp.Name with
         | some name => name.NamePos
         | none => imp.Path.ValuePos)) ∧
      r.Range.End = toVSPos env.intBits ((env.ParseFile stdin).Position
        (if imp.EndPos ≠ 0 then imp.EndPos
         else if imp.Path.ValueEnd ≠ 0 then imp.Path.ValueEnd
         else wrapInt env.intBits (imp.Path.ValuePos + imp.Path.Value.length))) ∧
      (∀ decls : List GenDecl,
        importLoop env (env.ParseFile stdin).Position
            ({ (env.ParseFile stdin).file with Decls := decls }).Imports GoSlice.make0
          = .ok (some records) ∧
        main { env with
                ParseFile := fun input =>
                  { env.ParseFile input with
                    file := { (env.ParseFile input).file with Decls := decls } } } stdin
          = main env stdin) := by
  obtain ⟨_, hrec⟩ := importLoop_ok_inv env _ _ [] _ hloop
  rw [List.nil_append] at hrec
  injection hrec with hrec
  subst hrec
  refine ⟨recordOf env (env.ParseFile stdin).Position imp, by simp [List.getElem?_map, himp],
    ?_, ?_, ?_⟩
  · cases hname : imp.Name <;> simp [recordOf, ImportSpec.Pos, hname, BasicLit.Pos]
  · simp only [recordOf, ImportSpec.End, BasicLit.End]
  · intro decls
    exact ⟨hloop, main_congr _ env stdin rfl rfl rfl rfl rfl rfl⟩

theorem import_range_spans_declaration_witness :
    importLoop (stdEnv 64 (fun _ => aliasParsed)) aliasParsed.Position aliasParsed.file.Imports
        GoSlice.make0 = .ok (some [aliasRecord]) ∧
    importLoop (stdEnv 64 (fun _ => rawParsed)) rawParsed.Position rawParsed.file.Imports
        GoSlice.make0
      = .ok (some [{ Name := utf8 "fmt",
                     Range := { Start := { Line := 1, Character := 7 },
                                End := { Line := 1, Character := 13 } } }]) ∧
    (rawSource.drop 17).take 6 = utf8 "\x60fm\rt\x60" ∧
    rawSpec.Path.ValuePos = 18 ∧ rawSpec.Path.End 64 = 24 ∧
    (aliasParsed.Position 18).Line = 2 ∧ (aliasParsed.Position 18).Column = 8 ∧
    ∃ r, [aliasRecord][0]? = some r ∧
      r.Range.Start = toVSPos 64 (aliasParsed.Position 18) ∧
      r.Range.End = toVSPos 64 (aliasParsed.Position 25) ∧
      main { stdEnv 64 (fun _ => aliasParsed) with
              ParseFile := fun _ =>
                { aliasParsed with file := { aliasParsed.file with Decls := [] } } } aliasSource
        = main (stdEnv 64 (fun _ => aliasParsed)) aliasSource := by
  refine ⟨by decide, by decide, by decide, by decide, by decide, by decide, by decide, ?_⟩
  obtain ⟨r, hr, hstart, hstop, hdecls⟩ :=
    import_range_spans_declaration (stdEnv 64 (fun _ => aliasParsed)) aliasSource
      [aliasRecord] 0 aliasSpec (by decide) (by decide)
  exact ⟨r, hr, hstart, hstop, (hdecls []).2⟩

/-- C4: in a run with `strconv.Unquote` whose loop completes, the record of
every declaration has as name the value that `strconv.Unquote` returns for the
path literal (without error) and as range `toVSPos` of both native endpoints;
for a literal that is `s` between double quotes, `s` being valid UTF-8 without
double quote, backslash and newline, the name is `s`, and so it is for a raw
literal, `s` between back quotes (without back quote and carriage return). -/
theorem record_name_and_range (env : Env) (stdin : GoString)
    (records : List GoImport) (i : Nat) (imp : ImportSpec)
    (hunquote : env.Unquote = strconvUnquote)
    (hloop : importLoop env (env.ParseFile stdin).Position (env.ParseFile stdin).file.Imports
      GoSlice.make0 = .ok (some records))
    (himp : (env.ParseFile stdin).file.Imports[i]? = some imp) :
    ∃ r, records[i]? = some r ∧
      strconvUnquote imp.Path.Value = (r.Name, none) ∧
      r.Range = { Start := toVSPos env.intBits ((env.ParseFile stdin).Position imp.Pos),
                  End := toVSPos env.intBits
                    ((env.ParseFile stdin).Position (imp.End env.intBits)) } ∧
      (∀ s : GoString, imp.Path.Value = [0x22] ++ s ++ [0x22] →
        (∀ b ∈ s, b ≠ 0x22 ∧ b ≠ 0x5C ∧ b ≠ 0x0A) → ValidString s = true → r.Name = s) ∧
      (∀ s : GoString, imp.Path.Value = [0x60] ++ s ++ [0x60] →
        (∀ b ∈ s, b ≠ 0x60 ∧ b ≠ 0x0D) → r.Name = s) := by
  obtain ⟨hall, hrec⟩ := importLoop_ok_inv env _ _ [] _ hloop
  rw [List.nil_append] at hrec
  injection hrec with hrec
  subst hrec
  have hmem : imp ∈ (env.ParseFile stdin).file.Imports := List.getElem?_mem himp
  have hok := hall imp hmem
  have hname : strconvUnquote imp.Path.Value
      = ((recordOf env (env.ParseFile stdin).Position imp).Name, none) := by
    rw [hunquote] at hok
    simp only [recordOf, hunquote]
    exact Prod.ext rfl hok
  refine ⟨recordOf env (env.ParseFile stdin).Position imp, by simp [List.getElem?_map, himp],
    hname, rfl, ?_, ?_⟩
  · intro s hval hs hv
    rw [hval, strconvUnquote_plain s hs hv] at hname
    exact (congrArg Prod.fst hname).symm
  · intro s hval hs
    rw [hval, strconvUnquote_raw s hs] at hname
    exact (congrArg Prod.fst hname).symm

theorem record_name_and_range_witness :
    (fmtParsed.Position fmtSpec.Pos).Line = 3 ∧
    (fmtParsed.Position fmtSpec.Pos).Column = 8 ∧
    (fmtParsed.Position (fmtSpec.End 64)).Line = 3 ∧
    (fmtParsed.Position (fmtSpec.End 64)).Column = 13 ∧
    importLoop (stdEnv 64 (fun _ => fmtParsed)) fmtParsed.Position fmtParsed.file.Imports
        GoSlice.make0
      = .ok (some [{ Name := utf8 "fmt",
                     Range := { Start := { Line := 2, Character := 7 },
                                End := { Line := 2, Character := 12 } } }]) ∧
    ∃ r, [fmtRecord][0]? = some r ∧
      r.Name = utf8 "fmt" ∧
      strconvUnquote (utf8 "\"fmt\"") = (r.Name, none) ∧
      r.Range = { Start := toVSPos 64 (fmtParsed.Position fmtSpec.Pos),
                  End := toVSPos 64 (fmtParsed.Position (fmtSpec.End 64)) } := by
  refine ⟨by decide, by decide, by decide, by decide, by decide, ?_⟩
  obtain ⟨r, hr, hname, hrange, hplain, _⟩ :=
    record_name_and_range (stdEnv 64 (fun _ => fmtParsed)) fmtSource [fmtRecord] 0 fmtSpec
      rfl (by decide) (by decide)
  exact ⟨r, hr, hplain (utf8 "fmt") (by decide) (by decide) (by decide), hname, hrange⟩

/-! ## The success payload -/

/-- C5: when parsing succeeds and the file has no declaration of an import, a
run with `json.Marshal` writes exactly the two bytes `[]` to stdout (not
`null`, not nothing), writes nothing to stderr and ends with exit status 0. -/
theorem main_no_imports (env : Env) (stdin : GoString)
    (hjson : env.Marshal = jsonMarshal)
    (hparse : (env.ParseFile stdin).err = none)
    (hnone : (env.ParseFile stdin).file.Imports = []) :
    main env stdin = { stdout := [0x5B, 0x5D], stderr := [], term := .returned } ∧
      (main env stdin).stdout = utf8 "[]" ∧
      (main env stdin).stdout ≠ utf8 "null" ∧
      (main env stdin).stdout ≠ [] ∧
      (main env stdin).status = 0 := by
  have hloop : importLoop env (env.ParseFile stdin).Position
      (env.ParseFile stdin).file.Imports GoSlice.make0 = .ok (some []) := by
    rw [hnone]; rfl
  have henc : env.Marshal (some []) = ([0x5B, 0x5D], none) := by
    rw [hjson]; decide
  have hmain := main_of_encoded env stdin _ hparse hloop (by rw [henc])
  rw [henc] at hmain
  rw [hmain]
  exact ⟨rfl, by decide, by decide, by decide, rfl⟩

theorem main_no_imports_witness :
    main (stdEnv 64 (fun _ => bareParsed)) bareSource
      = { stdout := [0x5B, 0x5D], stderr := [], term := .returned } :=
  (main_no_imports (stdEnv 64 (fun _ => bareParsed)) bareSource rfl rfl rfl).1

set_option maxRecDepth 100000 in
/-- C9 (as stated, refuted): a run on `byteEscapeSource`, whose path literal
unquotes to the three bytes a, 0xFF, b.  The payload is an array with one
object of the stated shape, but the value of its field `name` is the five
bytes a, EF BF BD, b (the byte 0xFF replaced by U+FFFD), not the name of the
record. -/
theorem invalid_name_counterexample :
    importLoop (stdEnv 64 (fun _ => byteEscapeParsed)) byteEscapeParsed.Position
        byteEscapeParsed.file.Imports GoSlice.make0
      = .ok (some [{ Name := [0x61, 0xFF, 0x62],
                     Range := { Start := { Line := 1, Character := 7 },
                                End := { Line := 1, Character := 15 } } }]) ∧
    main (stdEnv 64 (fun _ => byteEscapeParsed)) byteEscapeSource
      = { stdout := utf8 "[\x7b\"name\":\"a\uFFFDb\",\"range\":\x7b\"start\":\x7b\"line\":1,\"character\":7\x7d,\"end\":\x7b\"line\":1,\"character\":15\x7d\x7d\x7d]",
          stderr := [], term := .returned } ∧
    readPayload (main (stdEnv 64 (fun _ => byteEscapeParsed)) byteEscapeSource).stdout
      = some [{ Name := [0x61, 0xEF, 0xBF, 0xBD, 0x62],
                Range := { Start := { Line := 1, Character := 7 },
                           End := { Line := 1, Character := 15 } } }] ∧
    ¬ (∀ (env : Env) (stdin : GoString) (records : List GoImport),
        env.Marshal = jsonMarshal →
        (env.ParseFile stdin).err = none →
        importLoop env (env.ParseFile stdin).Position (env.ParseFile stdin).file.Imports
          GoSlice.make0 = .ok (some records) →
        readPayload (main env stdin).stdout = some records) := by
  refine ⟨by decide, by decide, by decide, ?_⟩
  intro h
  have h1 := h (stdEnv 64 (fun _ => byteEscapeParsed)) byteEscapeSource
    [{ Name := [0x61, 0xFF, 0x62],
       Range := { Start := { Line := 1, Character := 7 },
                  End := { Line := 1, Character := 15 } } }] rfl rfl (by decide)
  revert h1
  decide

/-- C9 (amended): the payload of a successful run with `json.Marshal` is a
JSON array with one object per record in record order, each object having
exactly the fields `name` (a string) and `range`, where `range` has exactly
`start` and `end`, each of which has exactly the integer fields `line` and
`character`: read as JSON of this shape, the payload denotes the records, with
their editor line and character numbers and with their names coerced to valid
UTF-8 (every byte that starts no valid encoding replaced by U+FFFD).  When
all names are valid UTF-8 it denotes the records themselves. -/
theorem main_payload_shape (env : Env) (stdin : GoString) (records : List GoImport)
    (hjson : env.Marshal = jsonMarshal)
    (hparse : (env.ParseFile stdin).err = none)
    (hloop : importLoop env (env.ParseFile stdin).Position (env.ParseFile stdin).file.Imports
      GoSlice.make0 = .ok (some records)) :
    ∃ payload,
      main env stdin = { stdout := payload, stderr := [], term := .returned } ∧
      readPayload payload
        = some (records.map (fun r => { Name := coerceUTF8 r.Name, Range := r.Range })) ∧
      ((∀ r ∈ records, ValidString r.Name = true) → readPayload payload = some records) := by
  have henc : env.Marshal (some records) = (payloadText records, none) := by
    rw [hjson, jsonMarshal_some]
  have hmain := main_of_encoded env stdin _ hparse hloop (by rw [henc])
  rw [henc] at hmain
  refine ⟨payloadText records, hmain, readPayload_payloadText records, ?_⟩
  intro hvalid
  rw [readPayload_payloadText]
  congr 1
  have hmap : records.map (fun r => ({ Name := coerceUTF8 r.Name, Range := r.Range } : GoImport))
      = records.map id := by
    apply List.map_congr_left
    intro r hr
    simp only [coerceUTF8_valid r.Name (hvalid r hr), id]
  rw [hmap, List.map_id]

set_option maxRecDepth 100000 in
theorem main_payload_shape_witness :
    (∃ payload,
      main (stdEnv 64 (fun _ => fmtParsed)) fmtSource
        = { stdout := payload, stderr := [], term := .returned } ∧
      payload = utf8 "[\x7b\"name\":\"fmt\",\"range\":\x7b\"start\":\x7b\"line\":2,\"character\":7\x7d,\"end\":\x7b\"line\":2,\"character\":12\x7d\x7d\x7d]" ∧
      readPayload payload = some [fmtRecord]) ∧
    (∃ payload,
      main (stdEnv 64 (fun _ => quoteParsed)) quoteSource
        = { stdout := payload, stderr := [], term := .returned } ∧
      payload = utf8 "[\x7b\"name\":\"a\\\"b\\u003c\",\"range\":\x7b\"start\":\x7b\"line\":1,\"character\":7\x7d,\"end\":\x7b\"line\":1,\"character\":14\x7d\x7d\x7d]" ∧
      readPayload payload
        = some [{ Name := utf8 "a\"b<",
                  Range := { Start := { Line := 1, Character := 7 },
                             End := { Line := 1, Character := 14 } } }]) := by
  constructor
  · obtain ⟨payload, hmain, _, hread⟩ :=
      main_payload_shape (stdEnv 64 (fun _ => fmtParsed)) fmtSource [fmtRecord] rfl rfl
        (by decide)
    refine ⟨payload, hmain, ?_, hread (by decide)⟩
    have hdec : (main (stdEnv 64 (fun _ => fmtParsed)) fmtSource).stdout
        = utf8 "[\x7b\"name\":\"fmt\",\"range\":\x7b\"start\":\x7b\"line\":2,\"character\":7\x7d,\"end\":\x7b\"line\":2,\"character\":12\x7d\x7d\x7d]" := by
      decide
    rw [hmain] at hdec
    exact hdec
  · obtain ⟨payload, hmain, _, hread⟩ :=
      main_payload_shape (stdEnv 64 (fun _ => quoteParsed)) quoteSource
        [{ Name := utf8 "a\"b<",
           Range := { Start := { Line := 1, Character := 7 },
                      End := { Line := 1, Character := 14 } } }] rfl rfl (by decide)
    refine ⟨payload, hmain, ?_, hread (by decide)⟩
    have hdec : (main (stdEnv 64 (fun _ => quoteParsed)) quoteSource).stdout
        = utf8 "[\x7b\"name\":\"a\\\"b\\u003c\",\"range\":\x7b\"start\":\x7b\"line\":1,\"character\":7\x7d,\"end\":\x7b\"line\":1,\"character\":14\x7d\x7d\x7d]" := by
      decide
    rw [hmain] at hdec
    exact hdec

/-! ## Failure paths -/

/-- C6: if a path literal among the imports fails to unquote, wherever it
stands and whatever came before it, the run writes nothing to stdout, writes
the message of the decode error (of the first literal that fails) to stderr
and ends with exit status 1. -/
theorem main_unquote_failure (env : Env) (stdin : GoString)
    (hparse : (env.ParseFile stdin).err = none)
    (hfail : ∃ imp ∈ (env.ParseFile stdin).file.Imports,
      (env.Unquote imp.Path.Value).2 ≠ none) :
    ∃ pre bad post msg,
      (env.ParseFile stdin).file.Imports = pre ++ bad :: post ∧
      (∀ imp ∈ pre, (env.Unquote imp.Path.Value).2 = none) ∧
      (env.Unquote bad.Path.Value).2 = some msg ∧
      main env stdin = { stdout := [], stderr := msg, term := .exited 1 } ∧
      (main env stdin).status = 1 := by
  obtain ⟨pre, bad, post, msg, hsplit, hpre, hbad⟩ := first_failure env _ hfail
  have hloop := importLoop_error env (env.ParseFile stdin).Position pre [] bad post msg hpre hbad
  rw [← hsplit] at hloop
  have hmain := main_of_loop_error env stdin _ hparse hloop
  exact ⟨pre, bad, post, msg, hsplit, hpre, hbad, hmain, by rw [hmain]; rfl⟩

theorem main_unquote_failure_witness :
    main (stdEnv 64 (fun _ => badEscapeParsed)) badEscapeSource
      = { stdout := [], stderr := utf8 "invalid syntax", term := .exited 1 } := by
  obtain ⟨pre, bad, post, msg, _, _, _, hmain, _⟩ :=
    main_unquote_failure (stdEnv 64 (fun _ => badEscapeParsed)) badEscapeSource (by decide)
      (by decide)
  have hdec : (main (stdEnv 64 (fun _ => badEscapeParsed)) badEscapeSource).stderr
      = utf8 "invalid syntax" := by
    decide
  rw [hmain] at hdec
  simp only at hdec
  rw [hmain, hdec]

/-- C7: if the parser reports an error, the run writes nothing to stdout,
writes exactly the parser's message to stderr (so stderr is non-empty whenever
the message is) and ends with exit status 1; the outcome is fixed by the
message alone, whatever the partial file holds: no import is processed. -/
theorem main_parse_failure (env : Env) (stdin msg : GoString)
    (herr : (env.ParseFile stdin).err = some msg) :
    main env stdin = { stdout := [], stderr := msg, term := .exited 1 } ∧
      (main env stdin).status = 1 ∧
      (msg ≠ [] → (main env stdin).stderr ≠ []) := by
  have hmain := main_of_parse_error env stdin msg herr
  refine ⟨hmain, by rw [hmain]; rfl, ?_⟩
  intro hmsg
  rw [hmain]
  exact hmsg

theorem main_parse_failure_witness :
    main (stdEnv 64 (fun _ => brokenParsed)) brokenSource
        = { stdout := [], stderr := utf8 "src.go:2:8: string literal not terminated",
            term := .exited 1 } ∧
      (main (stdEnv 64 (fun _ => brokenParsed)) brokenSource).stderr ≠ [] :=
  ⟨(main_parse_failure (stdEnv 64 (fun _ => brokenParsed)) brokenSource
      (utf8 "src.go:2:8: string literal not terminated") rfl).1,
   (main_parse_failure (stdEnv 64 (fun _ => brokenParsed)) brokenSource
      (utf8 "src.go:2:8: string literal not terminated") rfl).2.2 (by decide)⟩

/-! ## The two outcomes -/

/-- C8: with `json.Marshal` as encoder (which has no error outcome on
`[]GoImport`), for every input and every outcome of the parser and of the
unquoting a run ends in exactly one of two ways: a success, with the encoding
of the records as non-empty payload on stdout, nothing on stderr and exit
status 0, or a failure, with the message of the parser's error or of the first
failing unquoting on stderr, nothing on stdout and exit status 1; never both
and never neither. -/
theorem main_exactly_one_outcome (env : Env) (stdin : GoString)
    (hjson : env.Marshal = jsonMarshal) :
    ((∃ records payload,
        importLoop env (env.ParseFile stdin).Position (env.ParseFile stdin).file.Imports
          GoSlice.make0 = .ok (some records) ∧
        env.Marshal (some records) = (payload, none) ∧ payload ≠ [] ∧
        main env stdin = { stdout := payload, stderr := [], term := .returned }) ∨
     (∃ msg,
        ((env.ParseFile stdin).err = some msg ∨
          ∃ imp ∈ (env.ParseFile stdin).file.Imports,
            (env.Unquote imp.Path.Value).2 = some msg) ∧
        main env stdin = { stdout := [], stderr := msg, term := .exited 1 })) ∧
    ((main env stdin).status = 0 ∨ (main env stdin).status = 1) ∧
    ¬ ((main env stdin).status = 0 ∧ (main env stdin).status = 1) ∧
    ((main env stdin).status = 0 →
      (main env stdin).stderr = [] ∧ (main env stdin).stdout ≠ []) ∧
    ((main env stdin).status = 1 → (main env stdin).stdout = []) := by
  have hcases : (∃ records payload,
        importLoop env (env.ParseFile stdin).Position (env.ParseFile stdin).file.Imports
          GoSlice.make0 = .ok (some records) ∧
        env.Marshal (some records) = (payload, none) ∧ payload ≠ [] ∧
        main env stdin = { stdout := payload, stderr := [], term := .returned }) ∨
     (∃ msg,
        ((env.ParseFile stdin).err = some msg ∨
          ∃ imp ∈ (env.ParseFile stdin).file.Imports,
            (env.Unquote imp.Path.Value).2 = some msg) ∧
        main env stdin = { stdout := [], stderr := msg, term := .exited 1 }) := by
    cases hparse : (env.ParseFile stdin).err with
    | some msg => exact Or.inr ⟨msg, Or.inl rfl, main_of_parse_error env stdin msg hparse⟩
    | none =>
      by_cases hall : ∀ imp ∈ (env.ParseFile stdin).file.Imports,
          (env.Unquote imp.Path.Value).2 = none
      · have hloop := importLoop_ok env (env.ParseFile stdin).Position _ [] hall
        rw [List.nil_append] at hloop
        have henc : env.Marshal (some ((env.ParseFile stdin).file.Imports.map
            (recordOf env (env.ParseFile stdin).Position)))
            = (payloadText ((env.ParseFile stdin).file.Imports.map
                (recordOf env (env.ParseFile stdin).Position)), none) := by
          rw [hjson, jsonMarshal_some]
        have hmain := main_of_encoded env stdin
          (some ((env.ParseFile stdin).file.Imports.map
            (recordOf env (env.ParseFile stdin).Position))) hparse hloop (by rw [henc])
        rw [henc] at hmain
        refine Or.inl ⟨_, _, hloop, henc, ?_, hmain⟩
        have e1 : utf8 "[" = [0x5B] := by decide
        simp [payloadText, e1]
      · have hex : ∃ imp ∈ (env.ParseFile stdin).file.Imports,
            (env.Unquote imp.Path.Value).2 ≠ none := by
          by_contra hcon
          apply hall
          intro imp himp
          by_contra hne
          exact hcon ⟨imp, himp, hne⟩
        obtain ⟨pre, bad, post, msg, hsplit, hpre, hbad⟩ := first_failure env _ hex
        have hloop := importLoop_error env (env.ParseFile stdin).Position pre [] bad post msg
          hpre hbad
        rw [← hsplit] at hloop
        refine Or.inr ⟨msg, Or.inr ⟨bad, ?_, hbad⟩, main_of_loop_error env stdin _ hparse hloop⟩
        rw [hsplit]
        simp
  refine ⟨hcases, ?_, ?_, ?_, ?_⟩
  · rcases hcases with ⟨_, _, _, _, _, hm⟩ | ⟨_, _, hm⟩ <;> rw [hm]
    · exact Or.inl rfl
    · exact Or.inr rfl
  · rintro ⟨h0, h1⟩
    rw [h0] at h1
    exact absurd h1 (by decide)
  · intro h0
    rcases hcases with ⟨_, _, _, _, hne, hm⟩ | ⟨_, _, hm⟩ <;> rw [hm] at h0 ⊢
    · exact ⟨rfl, hne⟩
    · simp [Outcome.status] at h0
  · intro h1
    rcases hcases with ⟨_, _, _, _, _, hm⟩ | ⟨_, _, hm⟩ <;> rw [hm] at h1 ⊢
    · simp [Outcome.status] at h1

theorem main_exactly_one_outcome_witness :
    ((main (stdEnv 64 (fun _ => fmtParsed)) fmtSource).status = 0 ∨
      (main (stdEnv 64 (fun _ => fmtParsed)) fmtSource).status = 1) ∧
    (main (stdEnv 64 (fun _ => fmtParsed)) fmtSource).status = 0 ∧
    ((main (stdEnv 64 (fun _ => brokenParsed)) brokenSource).status = 0 ∨
      (main (stdEnv 64 (fun _ => brokenParsed)) brokenSource).status = 1) ∧
    (main (stdEnv 64 (fun _ => brokenParsed)) brokenSource).status = 1 ∧
    (main (stdEnv 64 (fun _ => badEscapeParsed)) badEscapeSource).status = 1 :=
  ⟨(main_exactly_one_outcome (stdEnv 64 (fun _ => fmtParsed)) fmtSource rfl).2.1,
   by decide,
   (main_exactly_one_outcome (stdEnv 64 (fun _ => brokenParsed)) brokenSource rfl).2.1,
   by decide, by decide⟩

end FindImports
